import Mathlib

/-!
Shallow embedding of the Netpbm repository (Go) for specification checking.

Sources embedded here:
- `src/PBM.go`: the `PBM` codec (`ReadPBM`, `Save`, `saveP1`, `saveP4`,
  `Invert`, `Flip`, `Flop`) and the `PPM` codec plus transform/drawing engine
  (`ReadPPM`, `Save`, `Set`, `Invert`, `Flip`, `Flop`, `SetMaxValue`,
  `Rotate90CW`, `ToPBM`, `DrawLine`, `DrawFilledCircle`).
- `src/unnamed/part_000` (namespace `Unnamed000`): a `PGM` codec
  (`ReadPGM`, `Save`, `Invert`, `Flip`, `Flop`, `SetMaxValue`, `Rotate90CW`,
  `ToPBM`).
- `src/unnamed/part_001`, first section (namespace `Unnamed001`): a second
  `PGM` implementation; only its `PGM` record and `ToPBM` are needed.

Modelling conventions:
- A file/byte stream is `List Nat` (byte values); a Go string is its byte
  list, so `"P1"` is `[80, 49]`.  Text helpers (`ReadString('\n')`,
  `strings.TrimSpace`, `strings.Fields`, `fmt.Sscanf` with `%d` verbs,
  `bufio.Scanner` line splitting) are modelled byte by byte below.
- `fmt.Sscanf` is modelled token-wise: each `%d` consumes one
  whitespace-separated field that must be a complete optionally-signed
  decimal numeral.  Go's scanner reads a maximal digit run inside a field;
  the two agree on every stream appearing in the claims and on everything
  the encoders emit.
- Reading from the stream is modelled as fully buffered: a read of `k`
  bytes yields the next `k` bytes when available (Go's `bufio.Read` may
  return short counts on very large files; no claim depends on that).
- Go slice indexing `s[i]` panics when `i` is out of range; a panicking
  operation is modelled as returning `none`.  Where the Go code only
  indexes within bounds (under the validity hypotheses of the relevant
  theorem), indexing is modelled with `List.getD`.
- `make([]T, n)` with negative `n` panics; decoders model a parsed negative
  dimension as a failed decode.  (For the degenerate stream with height 0
  and negative width Go would build an empty raster without panicking; no
  claim touches that corner.)
- Go `float64` arithmetic is modelled exactly: a finite value is a rational
  number and any non-finite result (NaN or an infinity, e.g. from division
  by zero) is `none` in the `GFloat` type.  Every float computation a
  theorem below evaluates is exact in IEEE double precision (small integers
  and exact quotients), so the rational model agrees with Go there.
  Conversion of a non-finite float to an integer is implementation-defined
  in Go and modelled as 0; no verified statement reaches it.
- `uint8` samples and `uint` max values are `Nat` with explicit `% 256`
  where Go's 8-bit wraparound matters.
-/

namespace Netpbm

/-! ## Byte-level text helpers -/

/-- Newline byte. -/
def nl : Nat := 10

/-- The byte string `"P1"`. -/
def tokP1 : List Nat := [80, 49]

/-- The byte string `"P2"`. -/
def tokP2 : List Nat := [80, 50]

/-- The byte string `"P3"`. -/
def tokP3 : List Nat := [80, 51]

/-- The byte string `"P4"`. -/
def tokP4 : List Nat := [80, 52]

/-- The byte string `"P5"`. -/
def tokP5 : List Nat := [80, 53]

/-- ASCII whitespace recognized by `unicode.IsSpace` (the inputs here are
ASCII): space, tab, newline, vertical tab, form feed, carriage return. -/
def isSpace (b : Nat) : Bool :=
  b == 32 || b == 9 || b == 10 || b == 11 || b == 12 || b == 13

/-- `bufio.Reader.ReadString('\n')`: the bytes up to and including the first
newline, and the rest of the stream.  Go returns an error when the stream
ends before a newline; every caller in the sources treats that as a failed
decode, so that case is `none`. -/
def readLine : List Nat → Option (List Nat × List Nat)
  | [] => none
  | b :: bs =>
    if b = nl then some ([nl], bs)
    else
      match readLine bs with
      | some (l, r) => some (b :: l, r)
      | none => none

/-- `strings.TrimSpace` on a byte string. -/
def trimSpace (s : List Nat) : List Nat :=
  ((s.dropWhile (isSpace ·)).reverse.dropWhile (isSpace ·)).reverse

/-- Accumulator loop behind `fields`: `cur` holds the bytes of the current
token in reverse order. -/
def fieldsAux : List Nat → List Nat → List (List Nat)
  | [], cur => if cur.isEmpty then [] else [cur.reverse]
  | b :: bs, cur =>
    if isSpace b then
      if cur.isEmpty then fieldsAux bs [] else cur.reverse :: fieldsAux bs []
    else fieldsAux bs (b :: cur)

/-- `strings.Fields`: the maximal whitespace-free tokens of a byte string. -/
def fields (s : List Nat) : List (List Nat) :=
  fieldsAux s []

/-- `bufio.Scanner` with the default line splitter: the stream cut at each
newline; a trailing newline does not produce an extra empty line. -/
def splitLines : List Nat → List (List Nat)
  | [] => []
  | b :: bs =>
    if b = nl then [] :: splitLines bs
    else
      match splitLines bs with
      | [] => [[b]]
      | l :: ls => (b :: l) :: ls

/-- Join tokens with a single space between consecutive tokens — the shape
every ASCII row writer produces with its "space after each value except
the last" loop. -/
def sepSpace : List (List Nat) → List Nat
  | [] => []
  | [t] => t
  | t :: ts => t ++ 32 :: sepSpace ts

/-! ## Decimal numerals -/

/-- Little-endian decimal digits of `n`, with explicit fuel so that the
kernel can evaluate it (`digitsRev` below instantiates the fuel). -/
def digitsRevFuel : Nat → Nat → List Nat
  | 0, _ => []
  | fuel + 1, n => if n = 0 then [] else n % 10 :: digitsRevFuel fuel (n / 10)

/-- Little-endian decimal digits of `n` (empty for 0). -/
def digitsRev (n : Nat) : List Nat :=
  digitsRevFuel n n

/-- The decimal numeral of `n` as a byte string, as printed by `fmt.Fprintf`
with `%d` on a non-negative value. -/
def natToBytes (n : Nat) : List Nat :=
  (if n = 0 then [0] else (digitsRev n).reverse).map (· + 48)

/-- ASCII decimal digit test. -/
def isDigit (b : Nat) : Bool :=
  48 ≤ b && b ≤ 57

/-- Parse a complete token of decimal digits. -/
def parseNatTok (tok : List Nat) : Option Nat :=
  if tok ≠ [] ∧ tok.all (isDigit ·) then
    some (tok.foldl (fun a b => 10 * a + (b - 48)) 0)
  else none

/-- Parse a complete optionally-signed decimal token, as one `%d` verb of
`fmt.Sscanf` reads a whitespace-separated field. -/
def parseIntTok (tok : List Nat) : Option Int :=
  match tok with
  | 45 :: rest => (parseNatTok rest).map (fun n => -(n : Int))
  | 43 :: rest => (parseNatTok rest).map (fun n => (n : Int))
  | _ => (parseNatTok tok).map (fun n => (n : Int))

/-- `fmt.Sscanf(s, "%d %d", &a, &b)` where the caller checks the error:
both fields must parse (extra fields are ignored by `Sscanf`). -/
def parse2Ints (s : List Nat) : Option (Int × Int) :=
  match fields s with
  | a :: b :: _ =>
    match parseIntTok a, parseIntTok b with
    | some x, some y => some (x, y)
    | _, _ => none
  | _ => none

/-- One `%d` verb scanned into a `uint8`: values outside `0..255` are a
scan error. -/
def parseU8Tok (tok : List Nat) : Option Nat :=
  match parseIntTok tok with
  | some v => if 0 ≤ v ∧ v ≤ 255 then some v.toNat else none
  | none => none

/-! ## Image records (`src/PBM.go`, `src/unnamed/part_000`,
`src/unnamed/part_001`) -/

/-- `PBM` of `src/PBM.go`: `data [][]bool; width, height int; magicNumber
string`.  Dimensions are `Nat`; a negative parsed dimension is handled at
the decoder boundary (it would make Go's `make` panic). -/
structure PBM where
  data : List (List Bool)
  width : Nat
  height : Nat
  magicNumber : List Nat
deriving DecidableEq, Repr

/-- `Pixel` of `src/PBM.go`: `R, G, B uint8`, each a `Nat` below 256. -/
structure Pixel where
  R : Nat
  G : Nat
  B : Nat
deriving DecidableEq, Repr, Inhabited

/-- `PPM` of `src/PBM.go`: `data [][]Pixel; width, height int; magicNumber
string; max uint`. -/
structure PPM where
  data : List (List Pixel)
  width : Nat
  height : Nat
  magicNumber : List Nat
  max : Nat
deriving DecidableEq, Repr

/-- `Point` of `src/PBM.go`: `X, Y int`. -/
structure Point where
  X : Int
  Y : Int
deriving DecidableEq, Repr

namespace Unnamed000

/-- `PGM` of `src/unnamed/part_000`: `data [][]uint8; width, height int;
magicNumber string; max uint`. -/
structure PGM where
  data : List (List Nat)
  width : Nat
  height : Nat
  magicNumber : List Nat
  max : Nat
deriving DecidableEq, Repr

end Unnamed000

namespace Unnamed001

/-- `PGM` of the first section of `src/unnamed/part_001`: `data [][]uint8;
width, height int; magicNumber string; max int`. -/
structure PGM where
  data : List (List Nat)
  width : Nat
  height : Nat
  magicNumber : List Nat
  max : Int
deriving DecidableEq, Repr

end Unnamed001

/-! ## The buffered reader (`bufio.Reader`)

`ReadPBM` and the `ReadPGM` of `src/unnamed/part_000` read through
`bufio.NewReader(file)`.  Its buffering is observable: `Read` returns at
most the currently buffered bytes of a single underlying read, so a
binary row that straddles a buffer boundary comes back short.  The state
is the pair `(buffered bytes, unread file bytes)`. -/

/-- The buffer capacity of `bufio.NewReader`: 4096 bytes. -/
def bufSize : Nat := 4096

/-- `bufio.Reader.fill`: one read on the underlying file appending to the
buffer.  A read on a regular file delivers the full requested count unless
fewer bytes remain. -/
def bufFill : List Nat × List Nat → List Nat × List Nat
  | (buf, src) =>
    (buf ++ src.take (bufSize - buf.length), src.drop (bufSize - buf.length))

/-- `bufio.Reader.Read` into a slice of length `k`: the data comes from at
most one underlying read, so the returned count may be less than `k`.  A
non-empty buffer is served directly with no refill; an empty buffer with a
request of at least the buffer capacity reads straight into the slice;
otherwise one `fill` serves the request from the buffer.  An exhausted
source returns no bytes (`io.EOF`), which the callers below treat the same
way as a short count. -/
def bufRead (k : Nat) (st : List Nat × List Nat) : List Nat × (List Nat × List Nat) :=
  if st.1.isEmpty then
    if bufSize ≤ k then ((st.2.take k), ([], st.2.drop k))
    else
      let st' := bufFill ([], st.2)
      (st'.1.take k, (st'.1.drop k, st'.2))
  else (st.1.take k, (st.1.drop k, st.2))

/-- Index of the first newline byte of a byte string. -/
def findNl : List Nat → Option Nat
  | [] => none
  | b :: bs => if b = nl then some 0 else (findNl bs).map (· + 1)

/-- `bufio.Reader.ReadString('\n')` on the buffered state.  The buffer is
scanned for the delimiter first (`ReadSlice` fills only when the scan
fails); if it is absent, the reader alternates `fill`s with
`ErrBufferFull` fragments inside `collectFragments`, and these windows are
aligned at `bufSize` boundaries of `buf ++ src`: the first fill tops the
partial buffer up to the full capacity, and every fragment consumes one
full window.  The returned line therefore runs to the first newline of
`buf ++ src`, the post-state buffer is the tail of the window holding that
newline, and the post-state source starts at the next window.  A source
exhausted before any delimiter is `io.EOF`, which every caller in the
sources treats as a failed decode — whether or not fragments were consumed
first — so that case is `none`. -/
def readStringNl (st : List Nat × List Nat) :
    Option (List Nat × (List Nat × List Nat)) :=
  match findNl st.1 with
  | some p => some (st.1.take (p + 1), (st.1.drop (p + 1), st.2))
  | none =>
    match findNl st.2 with
    | none => none
    | some q =>
      let p := st.1.length + q
      let k := p / bufSize
      let t := st.1 ++ st.2
      some (t.take (p + 1),
        (((t.drop (bufSize * k)).take bufSize).drop (p % bufSize + 1),
          t.drop (bufSize * (k + 1))))

/-! ## PBM codec (`src/PBM.go`) -/

/-- The inner loop of `ReadPBM`'s P1 branch: `for x, field := range fields`
assigns `data[y][x] = field == "1"`, failing when `x >= width`. -/
def p1FillRow (width : Nat) : List Bool → Nat → List (List Nat) → Option (List Bool)
  | row, _, [] => some row
  | row, x, f :: fs =>
    if x ≥ width then none
    else p1FillRow width (row.set x (f == [49])) (x + 1) fs

/-- The P1 row loop of `ReadPBM`: one `ReadString('\n')` per row, tokens
via `strings.Fields`, filled into a `width`-long all-false row. -/
def readP1Rows (width : Nat) : Nat → List Nat × List Nat → Option (List (List Bool))
  | 0, _ => some []
  | n + 1, st =>
    match readStringNl st with
    | none => none
    | some (line, st') =>
      match p1FillRow width (List.replicate width false) 0 (fields line) with
      | none => none
      | some row => (readP1Rows width n st').map (row :: ·)

/-- One P4 row decoded from its packed bytes: bit `7 - x % 8` of byte
`x / 8`, exactly the extraction in `ReadPBM`'s P4 branch. -/
def unpackRow (rowBytes : List Nat) (width : Nat) : List Bool :=
  (List.range width).map fun x =>
    ((rowBytes.getD (x / 8) 0) >>> (7 - x % 8)) &&& 1 != 0

/-- The P4 row loop of `ReadPBM`: one `bufio.Read` of
`expectedBytesPerRow = (width+7)/8` bytes per row; a short count
(`n < expectedBytesPerRow`) or an exhausted source (`io.EOF`) fails the
decode, otherwise per-pixel bit extraction. -/
def readP4Rows (width : Nat) : Nat → List Nat × List Nat → Option (List (List Bool))
  | 0, _ => some []
  | n + 1, st =>
    let k := (width + 7) / 8
    let r := bufRead k st
    if r.1.length < k then none
    else (readP4Rows width n r.2).map (unpackRow r.1 width :: ·)

/-- `ReadPBM` of `src/PBM.go`, on the byte stream of the named file read
through a fresh `bufio.Reader`: magic line (must be `P1` or `P4`),
dimension line via `Sscanf "%d %d"`, then the ASCII or binary row loop. -/
def ReadPBM (stream : List Nat) : Option PBM :=
  match readStringNl ([], stream) with
  | none => none
  | some (mLine, st1) =>
    let magic := trimSpace mLine
    if magic ≠ tokP1 ∧ magic ≠ tokP4 then none
    else
      match readStringNl st1 with
      | none => none
      | some (dLine, st2) =>
        match parse2Ints (trimSpace dLine) with
        | none => none
        | some (w, h) =>
          if w < 0 ∨ h < 0 then none
          else
            let width := w.toNat
            let height := h.toNat
            if magic = tokP1 then
              (readP1Rows width height st2).map fun data =>
                ⟨data, width, height, magic⟩
            else
              (readP4Rows width height st2).map fun data =>
                ⟨data, width, height, magic⟩

/-- One row of `saveP1`: pixels as `"1"`/`"0"`, single spaces between
pixels, a newline after the row. -/
def saveP1Row (row : List Bool) : List Nat :=
  sepSpace (row.map fun b => if b then [49] else [48]) ++ [nl]

/-- One iteration of `saveP4`'s packing loop: if pixel `x` is set, OR
`1 << (7 - x%8)` into byte `x / 8`. -/
def packStep (row : List Bool) (bytes : List Nat) (x : Nat) : List Nat :=
  if row.getD x false then
    bytes.set (x / 8) ((bytes.getD (x / 8) 0) ||| (1 <<< (7 - x % 8)))
  else bytes

/-- `saveP4`'s packing loop for one row: `(width+7)/8` zero bytes, then one
`packStep` per pixel. -/
def packRow (row : List Bool) (width : Nat) : List Nat :=
  (List.range width).foldl (packStep row) (List.replicate ((width + 7) / 8) 0)

/-- The header written by `PBM.Save`: `"%s\n%d %d\n"`. -/
def pbmHeader (pbm : PBM) : List Nat :=
  pbm.magicNumber ++ [nl] ++
    sepSpace [natToBytes pbm.width, natToBytes pbm.height] ++ [nl]

/-- `PBM.Save` of `src/PBM.go` as the bytes written to the file; `none` for
an unsupported magic number (Go returns an error).  The row loops index
`data[i][j]` for `i < height`, `j < width`; that is modelled with `getD`
and is exact on rasters of the declared shape. -/
def PBM.Save (pbm : PBM) : Option (List Nat) :=
  if pbm.magicNumber = tokP1 then
    some (pbmHeader pbm ++
      ((List.range pbm.height).map fun i => saveP1Row ((pbm.data.getD i []).take pbm.width)).flatten)
  else if pbm.magicNumber = tokP4 then
    some (pbmHeader pbm ++
      ((List.range pbm.height).map fun i => packRow (pbm.data.getD i []) pbm.width).flatten)
  else none

/-! ## PGM codec (`src/unnamed/part_000`) -/

namespace Unnamed000

/-- The inner loop of `ReadPGM`'s P2 branch: each field is scanned with
`Sscanf "%d"` into a `uint8` and assigned at index `x`, failing when
`x >= width` or the scan fails. -/
def p2FillRow (width : Nat) : List Nat → Nat → List (List Nat) → Option (List Nat)
  | row, _, [] => some row
  | row, x, f :: fs =>
    if x ≥ width then none
    else
      match parseU8Tok f with
      | none => none
      | some v => p2FillRow width (row.set x v) (x + 1) fs

/-- The P2 row loop of `ReadPGM`: one `ReadString('\n')` per row. -/
def readP2Rows (width : Nat) : Nat → List Nat × List Nat → Option (List (List Nat))
  | 0, _ => some []
  | n + 1, st =>
    match readStringNl st with
    | none => none
    | some (line, st') =>
      match p2FillRow width (List.replicate width 0) 0 (fields line) with
      | none => none
      | some row => (readP2Rows width n st').map (row :: ·)

/-- The P5 row loop of `ReadPGM`: one `bufio.Read` of
`width * expectedBytesPerPixel = width` bytes per row; a short count or an
exhausted source (`io.EOF`) fails the decode. -/
def readP5Rows (width : Nat) : Nat → List Nat × List Nat → Option (List (List Nat))
  | 0, _ => some []
  | n + 1, st =>
    let r := bufRead width st
    if r.1.length < width then none
    else (readP5Rows width n r.2).map (r.1 :: ·)

/-- `ReadPGM` of `src/unnamed/part_000`, on the byte stream read through a
fresh `bufio.Reader`: magic line (`P2` or `P5`), dimension line (positivity
checked explicitly by the source), max-value line scanned into a `uint8`,
then the ASCII or binary row loop. -/
def ReadPGM (stream : List Nat) : Option PGM :=
  match readStringNl ([], stream) with
  | none => none
  | some (mLine, st1) =>
    let magic := trimSpace mLine
    if magic ≠ tokP2 ∧ magic ≠ tokP5 then none
    else
      match readStringNl st1 with
      | none => none
      | some (dLine, st2) =>
        match parse2Ints (trimSpace dLine) with
        | none => none
        | some (w, h) =>
          if w ≤ 0 ∨ h ≤ 0 then none
          else
            let width := w.toNat
            let height := h.toNat
            match readStringNl st2 with
            | none => none
            | some (xLine, st3) =>
              match (fields (trimSpace xLine)).headD [] |> parseU8Tok with
              | none => none
              | some mx =>
                if magic = tokP2 then
                  (readP2Rows width height st3).map fun data =>
                    ⟨data, width, height, magic, mx⟩
                else
                  (readP5Rows width height st3).map fun data =>
                    ⟨data, width, height, magic, mx⟩

/-- One row of `saveP2PGM`: decimal samples, single spaces between samples,
a newline after the row. -/
def saveP2Row (row : List Nat) : List Nat :=
  sepSpace (row.map natToBytes) ++ [nl]

/-- The header written by `PGM.Save`: magic, dimensions and max value on
their own lines. -/
def pgmHeader (pgm : PGM) : List Nat :=
  pgm.magicNumber ++ [nl] ++
    sepSpace [natToBytes pgm.width, natToBytes pgm.height] ++ [nl] ++
    natToBytes pgm.max ++ [nl]

/-- `PGM.Save` of `src/unnamed/part_000`: header, a consistency check that
every stored row has length `width` (an error otherwise), then the P2 or P5
body.  A magic number other than `P2`/`P5` writes the header only — the
source has no `else` branch — and still succeeds. -/
def PGM.Save (pgm : PGM) : Option (List Nat) :=
  if pgm.data.all fun row => row.length = pgm.width then
    some (pgmHeader pgm ++
      (if pgm.magicNumber = tokP2 then
        ((List.range pgm.height).map fun y => saveP2Row ((pgm.data.getD y []).take pgm.width)).flatten
      else if pgm.magicNumber = tokP5 then
        ((List.range pgm.height).map fun y =>
          ((pgm.data.getD y []).take pgm.width).map (· % 256)).flatten
      else []))
  else none

end Unnamed000

/-! ## PPM codec (`src/PBM.go`) -/

/-- `Sscanf "%d %d"` with the error ignored, as `ReadPPM` does for the
dimension line: unscanned targets keep their zero values. -/
def sscanf2Lenient (s : List Nat) : Int × Int :=
  match fields s with
  | [] => (0, 0)
  | [a] => ((parseIntTok a).getD 0, 0)
  | a :: b :: _ =>
    match parseIntTok a with
    | none => (0, 0)
    | some x => (x, (parseIntTok b).getD 0)

/-- `Sscanf "%d"` into a `uint` with the error ignored, as `ReadPPM` does
for the max-value line. -/
def sscanfUintLenient (s : List Nat) : Nat :=
  match (fields s).headD [] |> parseIntTok with
  | some v => if 0 ≤ v then v.toNat else 0
  | none => 0

/-- `Sscanf "%d %d %d"` into three `uint8`s with the error ignored, as
`ReadPPM` does per pixel line: scanning stops at the first bad field and
the remaining channels keep their zero values. -/
def sscanf3U8Lenient (s : List Nat) : Nat × Nat × Nat :=
  match fields s with
  | [] => (0, 0, 0)
  | [a] => ((parseU8Tok a).getD 0, 0, 0)
  | [a, b] =>
    match parseU8Tok a with
    | none => (0, 0, 0)
    | some va => (va, (parseU8Tok b).getD 0, 0)
  | a :: b :: c :: _ =>
    match parseU8Tok a with
    | none => (0, 0, 0)
    | some va =>
      match parseU8Tok b with
      | none => (va, 0, 0)
      | some vb => (va, vb, (parseU8Tok c).getD 0)

/-- One row of `ReadPPM`'s pixel loop: one `scanner.Scan()` per pixel (an
exhausted scanner yields the empty line, leaving the pixel zero). -/
def readPPMRow (width : Nat) : List (List Nat) → List Pixel × List (List Nat)
  | ls =>
    match width with
    | 0 => ([], ls)
    | w + 1 =>
      let (r, g, b) := sscanf3U8Lenient (ls.headD [])
      let (row, ls') := readPPMRow w ls.tail
      (⟨r, g, b⟩ :: row, ls')

/-- The row loop of `ReadPPM`'s pixel section. -/
def readPPMRows (width : Nat) : Nat → List (List Nat) → List (List Pixel) × List (List Nat)
  | 0, ls => ([], ls)
  | n + 1, ls =>
    let (row, ls') := readPPMRow width ls
    let (rows, ls'') := readPPMRows width n ls'
    (row :: rows, ls'')

/-- `ReadPPM` of `src/PBM.go`: `bufio.Scanner` lines; the magic number is
stored without any validation; dimension, max-value and pixel scans ignore
their errors.  Only a negative parsed dimension fails (Go's `make`
panics). -/
def ReadPPM (stream : List Nat) : Option PPM :=
  let ls := splitLines stream
  let magic := ls.headD []
  let (w, h) := sscanf2Lenient (ls.tail.headD [])
  let mx := sscanfUintLenient (ls.tail.tail.headD [])
  if w < 0 ∨ h < 0 then none
  else
    some ⟨(readPPMRows w.toNat h.toNat ls.tail.tail.tail).1, w.toNat, h.toNat, magic, mx⟩

/-- The content of one pixel line of `PPM.Save`: `"%d %d %d"`. -/
def pixContent (p : Pixel) : List Nat :=
  sepSpace [natToBytes p.R, natToBytes p.G, natToBytes p.B]

/-- One pixel line of `PPM.Save`: `"%d %d %d\n"`. -/
def pixelLine (p : Pixel) : List Nat :=
  pixContent p ++ [nl]

/-- `PPM.Save` of `src/PBM.go` as the bytes written: three header lines,
then one line per pixel in row-major order.  The loops index
`data[i][j]` for `i < height`, `j < width` (modelled with `getD`/`take`,
exact on rasters of the declared shape). -/
def PPM.Save (ppm : PPM) : List Nat :=
  ppm.magicNumber ++ [nl] ++
    sepSpace [natToBytes ppm.width, natToBytes ppm.height] ++ [nl] ++
    natToBytes ppm.max ++ [nl] ++
    ((List.range ppm.height).map fun i =>
      (((ppm.data.getD i []).take ppm.width).map pixelLine).flatten).flatten

/-! ## Exact model of Go `float64` values -/

/-- A Go `float64`: a finite value is an exact rational, `none` is any
non-finite value (NaN or ±Inf). -/
def GFloat : Type := Option ℚ
deriving DecidableEq

/-- Finite float from an integer. -/
def gfOfInt (n : Int) : GFloat := some (n : ℚ)

/-- Finite float from a natural number. -/
def gfOfNat (n : Nat) : GFloat := some (n : ℚ)

/-- Float addition; non-finite operands propagate. -/
def gfAdd : GFloat → GFloat → GFloat
  | some a, some b => some (a + b)
  | _, _ => none

/-- Float multiplication; non-finite operands propagate (no operand below
is large enough to overflow). -/
def gfMul : GFloat → GFloat → GFloat
  | some a, some b => some (a * b)
  | _, _ => none

/-- Float division: division by zero produces a non-finite value (±Inf or
NaN); non-finite operands propagate. -/
def gfDiv : GFloat → GFloat → GFloat
  | some a, some b => if b = 0 then none else some (a / b)
  | _, _ => none

/-- `math.Abs` (written with an explicit sign test so that the kernel can
evaluate it; equal to `|a|` on finite values). -/
def gfAbs : GFloat → GFloat
  | some a => some (if Rat.blt a 0 then -a else a)
  | none => none

/-- `math.Max` (NaN-propagating, as in Go; written with an explicit
comparison so that the kernel can evaluate it). -/
def gfMax : GFloat → GFloat → GFloat
  | some a, some b => some (if Rat.blt a b then b else a)
  | _, _ => none

/-- Go conversion `int(f)`: truncation toward zero for a finite value;
implementation-defined for a non-finite value, modelled as 0 (never
reached by the statements proved below). -/
def goInt : GFloat → Int
  | some q => Int.tdiv q.num (q.den : Int)
  | none => 0

/-! ## PPM transforms and drawing engine (`src/PBM.go`) -/

/-- Map `f` over the cells `(i, j)` with `i < h`, `j < w` of a grid,
leaving any cells beyond those index ranges unchanged — the shape of every
`for i < height { for j < width { ... } }` mutation loop in the sources. -/
def mapGrid (h w : Nat) (f : α → α) (data : List (List α)) : List (List α) :=
  data.mapIdx fun i row =>
    if i < h then row.mapIdx (fun j v => if j < w then f v else v) else row

/-- In-place swap of positions `a` and `b` of a list, as Go's
`l[a], l[b] = l[b], l[a]` (the sources only swap in-range positions). -/
def swapIdx [Inhabited α] (l : List α) (a b : Nat) : List α :=
  (l.set a (l.getD b default)).set b (l.getD a default)

/-- `uint8(max) - v` in Go `uint8` arithmetic (wraparound mod 256). -/
def u8Sub (mx v : Nat) : Nat :=
  (mx % 256 + 256 - v % 256) % 256

/-- `PPM.Set` of `src/PBM.go`: `ppm.data[y][x] = value` with no bounds
check — an out-of-range coordinate panics (`none`). -/
def PPM.Set (ppm : PPM) (x y : Int) (value : Pixel) : Option PPM :=
  if 0 ≤ y ∧ y.toNat < ppm.data.length then
    let row := ppm.data.getD y.toNat []
    if 0 ≤ x ∧ x.toNat < row.length then
      some { ppm with data := ppm.data.set y.toNat (row.set x.toNat value) }
    else none
  else none

/-- `PPM.Invert`: per channel `uint8(ppm.max) - channel` over the
`height × width` loop. -/
def PPM.Invert (ppm : PPM) : PPM :=
  { ppm with
    data := mapGrid ppm.height ppm.width
      (fun p => ⟨u8Sub ppm.max p.R, u8Sub ppm.max p.G, u8Sub ppm.max p.B⟩) ppm.data }

/-- `PPM.Flip`: per row `i < height`, swap columns `j` and `width-j-1` for
`j < width/2`. -/
def PPM.Flip (ppm : PPM) : PPM :=
  { ppm with
    data := ppm.data.mapIdx fun i row =>
      if i < ppm.height then
        (List.range (ppm.width / 2)).foldl (fun r j => swapIdx r j (ppm.width - j - 1)) row
      else row }

/-- `PPM.Flop`: swap rows `i` and `height-i-1` for `i < height/2`. -/
def PPM.Flop (ppm : PPM) : PPM :=
  { ppm with
    data := (List.range (ppm.height / 2)).foldl
      (fun d i => swapIdx d i (ppm.height - i - 1)) ppm.data }

/-- `PPM.SetMaxValue` of `src/PBM.go`: stores the new max value and touches
nothing else — no sample is rescaled. -/
def PPM.SetMaxValue (ppm : PPM) (maxValue : Nat) : PPM :=
  { ppm with max := maxValue % 256 }

/-- `PPM.Rotate90CW`: `newData[j][height-1-i] = data[i][j]`, then width and
height are swapped.  Writing the assignment target as `newData[j][k]` with
`k = height-1-i` gives cell `(j, k) ↦ data[height-1-k][j]`. -/
def PPM.Rotate90CW (ppm : PPM) : PPM :=
  { ppm with
    data := (List.range ppm.width).map fun j =>
      (List.range ppm.height).map fun k =>
        (ppm.data.getD (ppm.height - 1 - k) []).getD j default,
    width := ppm.height,
    height := ppm.width }

/-- Floor of the base-two logarithm, with explicit fuel so that the kernel
can evaluate it (`Nat.log2` itself recurses by well-founded recursion). -/
def log2Fuel : Nat → Nat → Nat
  | 0, _ => 0
  | fuel + 1, n => if 2 ≤ n then log2Fuel fuel (n / 2) + 1 else 0

/-- `Nat.log2`: for `1 ≤ n`, the `t` with `2 ^ t ≤ n < 2 ^ (t + 1)`. -/
def natLog2 (n : Nat) : Nat := log2Fuel n n

/-- The nearest `float64` to the positive rational `n / d`: the value is
scaled by a power of two so that the significand lies in `[2^52, 2^53)`,
the significand is rounded to the nearest integer with ties to even, and
the scaling is undone.  (Every value arising in this development is far
inside the normal range, so overflow and subnormals do not arise.) -/
def flPos (n d : Nat) : ℚ :=
  let s := natLog2 d
  let t := natLog2 n
  let w0 := d * 2 ^ t
  let p := if n * 2 ^ (52 + s) < 2 ^ 52 * w0 then 53 + s else 52 + s
  let v := n * 2 ^ p
  let m0 := v / w0
  let r := v % w0
  let m := if 2 * r < w0 then m0
    else if w0 < 2 * r then m0 + 1
    else if m0 % 2 = 0 then m0 else m0 + 1
  (m * 2 ^ t : ℚ) / (2 ^ p : ℚ)

/-- Round a rational to the nearest `float64` value (round to nearest,
ties to even). -/
def fl (q : ℚ) : ℚ :=
  if q = 0 then 0
  else if 0 < q then flPos q.num.natAbs q.den
  else -flPos q.num.natAbs q.den

/-- The `float64` value of the source literal `0.299`. -/
def c299 : ℚ := fl (299 / 1000)

/-- The `float64` value of the source literal `0.587`. -/
def c587 : ℚ := fl (587 / 1000)

/-- The `float64` value of the source literal `0.114`. -/
def c114 : ℚ := fl (114 / 1000)

/-- The `float64` luma computation of `PPM.ToPBM`:
`0.299*float64(R) + 0.587*float64(G) + 0.114*float64(B)`, left-associated
as the Go compiler evaluates it, with every multiplication and addition
rounded to the nearest `float64` (the conversions of the `uint8` channels
to `float64` are exact). -/
def flLuma (p : Pixel) : ℚ :=
  fl (fl (fl (c299 * p.R) + fl (c587 * p.G)) + fl (c114 * p.B))

/-- The specification's exact-rational reading of the luma
`0.299R + 0.587G + 0.114B`, kept for comparison with the `float64`
computation the source actually performs (the two orderings of the
comparison against `max/2` differ exactly at floating-point ties). -/
def lumaSpec (p : Pixel) : ℚ :=
  (299 / 1000 : ℚ) * p.R + (587 / 1000 : ℚ) * p.G + (114 / 1000 : ℚ) * p.B

/-- `PPM.ToPBM` of `src/PBM.go`: per pixel, true when the `float64` luma
exceeds `float64(ppm.max) / 2` (the halving of a converted integer is an
exact `float64` operation); magic `P1`, dimensions preserved. -/
def PPM.ToPBM (ppm : PPM) : PBM :=
  { data := (List.range ppm.height).map fun i =>
      (List.range ppm.width).map fun j =>
        decide (flLuma ((ppm.data.getD i []).getD j default) > fl (ppm.max : ℚ) / 2),
    width := ppm.width,
    height := ppm.height,
    magicNumber := tokP1 }

/-- The x increment of `PPM.DrawLine`: `dx / float64(steps)` — computed
unconditionally, with no guard on `steps == 0`. -/
def lineXIncrement (p1 p2 : Point) : GFloat :=
  let dx := gfOfInt (p2.X - p1.X)
  let dy := gfOfInt (p2.Y - p1.Y)
  gfDiv dx (gfOfInt (goInt (gfMax (gfAbs dx) (gfAbs dy))))

/-- The y increment of `PPM.DrawLine`, likewise unguarded. -/
def lineYIncrement (p1 p2 : Point) : GFloat :=
  let dx := gfOfInt (p2.X - p1.X)
  let dy := gfOfInt (p2.Y - p1.Y)
  gfDiv dy (gfOfInt (goInt (gfMax (gfAbs dx) (gfAbs dy))))

/-- The loop of `PPM.DrawLine`: `iters` iterations of
`Set(int(x), int(y)); x += xInc; y += yInc`, a panic (`none`) aborting. -/
def drawLineLoop (c : Pixel) (xInc yInc : GFloat) :
    Nat → GFloat → GFloat → Option PPM → Option PPM
  | 0, _, _, st => st
  | n + 1, x, y, st =>
    drawLineLoop c xInc yInc n (gfAdd x xInc) (gfAdd y yInc)
      (st.bind fun im => im.Set (goInt x) (goInt y) c)

/-- `PPM.DrawLine` of `src/PBM.go`: parametric stepping over
`steps = int(max(|dx|, |dy|))` with `steps + 1` calls to `Set`. -/
def PPM.DrawLine (ppm : PPM) (p1 p2 : Point) (color : Pixel) : Option PPM :=
  let steps := goInt (gfMax (gfAbs (gfOfInt (p2.X - p1.X))) (gfAbs (gfOfInt (p2.Y - p1.Y))))
  drawLineLoop color (lineXIncrement p1 p2) (lineYIncrement p1 p2)
    (steps + 1).toNat (gfOfInt p1.X) (gfOfInt p1.Y) (some ppm)

/-- The inclusive integer range `a..b` of a Go `for i := a; i <= b; i++`
loop. -/
def intRange (a b : Int) : List Int :=
  (List.range (b - a + 1).toNat).map fun k => a + k

/-- `PPM.DrawFilledCircle` of `src/PBM.go`: for `i, j` in
`-radius..radius`, `Set(center.X+i, center.Y+j)` whenever
`i² + j² ≤ radius²`; a panic (`none`) aborts the operation. -/
def PPM.DrawFilledCircle (ppm : PPM) (center : Point) (radius : Int) (color : Pixel) :
    Option PPM :=
  (intRange (-radius) radius).foldl
    (fun st i =>
      (intRange (-radius) radius).foldl
        (fun st' j =>
          if i * i + j * j ≤ radius * radius then
            st'.bind fun im => im.Set (center.X + i) (center.Y + j) color
          else st')
        st)
    (some ppm)

/-! ## PGM transforms (`src/unnamed/part_000`) -/

namespace Unnamed000

/-- `PGM.Invert` of `src/unnamed/part_000`: ranges over the actual rows and
row lengths (`for i := range pgm.data`), per sample `uint8(max) - v`. -/
def PGM.Invert (pgm : PGM) : PGM :=
  { pgm with data := pgm.data.map fun row => row.map (u8Sub pgm.max) }

/-- `PGM.Flip` of `src/unnamed/part_000`: reverses each row in place over
its actual length (`j, k := 0, len(row)-1; j < k`). -/
def PGM.Flip (pgm : PGM) : PGM :=
  { pgm with
    data := pgm.data.map fun row =>
      (List.range (row.length / 2)).foldl (fun r j => swapIdx r j (row.length - j - 1)) row }

/-- `PGM.Flop` of `src/unnamed/part_000`: swap rows `i` and `height-i-1`
for `i < height/2`. -/
def PGM.Flop (pgm : PGM) : PGM :=
  { pgm with
    data := (List.range (pgm.height / 2)).foldl
      (fun d i => swapIdx d i (pgm.height - i - 1)) pgm.data }

/-- `PGM.SetMaxValue` of `src/unnamed/part_000` (the source comments it
`// Doesnt work`): every sample becomes
`uint8(float64(v) * float64(maxValue) / float64(pgm.max))` — Go's float to
integer conversion truncates — and the stored max becomes `maxValue`.
There is no validation and no error path.  Division by zero (stored max 0)
yields a non-finite float whose conversion is implementation-defined;
modelled as 0 and never relied on. -/
def PGM.SetMaxValue (pgm : PGM) (maxValue : Nat) : PGM :=
  { pgm with
    data := mapGrid pgm.height pgm.width
      (fun v =>
        (goInt (gfDiv (gfMul (gfOfNat v) (gfOfNat (maxValue % 256))) (gfOfNat pgm.max))).toNat)
      pgm.data,
    max := maxValue % 256 }

/-- `PGM.Rotate90CW` of `src/unnamed/part_000`:
`newData[i][j] = data[height-j-1][i]` with width and height swapped; a
degenerate dimension returns the image unchanged (the source's
`width <= 0 || height <= 0` early return). -/
def PGM.Rotate90CW (pgm : PGM) : PGM :=
  if pgm.width = 0 ∨ pgm.height = 0 then pgm
  else
    { pgm with
      data := (List.range pgm.width).map fun i =>
        (List.range pgm.height).map fun j =>
          (pgm.data.getD (pgm.height - 1 - j) []).getD i 0,
      width := pgm.height,
      height := pgm.width }

/-- `PGM.ToPBM` of `src/unnamed/part_000`: per pixel
`pgm.data[y][x] < uint8(pgm.max/2)` — the dark-pixel test — with magic
`P1`. -/
def PGM.ToPBM (pgm : PGM) : PBM :=
  { data := (List.range pgm.height).map fun y =>
      (List.range pgm.width).map fun x =>
        decide ((pgm.data.getD y []).getD x 0 < pgm.max / 2 % 256),
    width := pgm.width,
    height := pgm.height,
    magicNumber := tokP1 }

end Unnamed000

/-! ## PGM conversion (`src/unnamed/part_001`, first section) -/

namespace Unnamed001

/-- `PGM.ToPBM` of `src/unnamed/part_001`: per pixel
`pgm.data[y][x] > uint8(pgm.max/2)` — the bright-pixel test, with Go `int`
division truncating toward zero and the `uint8` conversion wrapping — and
magic `P4`. -/
def PGM.ToPBM (pgm : PGM) : PBM :=
  { data := (List.range pgm.height).map fun y =>
      (List.range pgm.width).map fun x =>
        decide ((pgm.data.getD y []).getD x 0 > (Int.tdiv pgm.max 2 |>.emod 256).toNat),
    width := pgm.width,
    height := pgm.height,
    magicNumber := tokP4 }

end Unnamed001

/-! ## PBM transforms (`src/PBM.go`) -/

/-- `PBM.Invert`: boolean negation over the `height × width` loop. -/
def PBM.Invert (pbm : PBM) : PBM :=
  { pbm with data := mapGrid pbm.height pbm.width not pbm.data }

/-- `PBM.Flip`: per row `i < height`, swap columns `j` and `width-j-1` for
`j < width/2`. -/
def PBM.Flip (pbm : PBM) : PBM :=
  { pbm with
    data := pbm.data.mapIdx fun i row =>
      if i < pbm.height then
        (List.range (pbm.width / 2)).foldl (fun r j => swapIdx r j (pbm.width - j - 1)) row
      else row }

/-- `PBM.Flop`: swap rows `i` and `height-i-1` for `i < height/2`. -/
def PBM.Flop (pbm : PBM) : PBM :=
  { pbm with
    data := (List.range (pbm.height / 2)).foldl
      (fun d i => swapIdx d i (pbm.height - i - 1)) pbm.data }

/-! ## Validity predicates -/

/-- The raster-shape invariant of the data model: exactly `h` rows of
exactly `w` samples. -/
def Shape (data : List (List α)) (w h : Nat) : Prop :=
  data.length = h ∧ ∀ row ∈ data, row.length = w

instance {data : List (List α)} {w h : Nat} : Decidable (Shape data w h) := by
  unfold Shape; infer_instance

/-- A valid PBM image: positive dimensions, a supported magic number, and
the raster-shape invariant. -/
def PBM.Valid (pbm : PBM) : Prop :=
  (pbm.magicNumber = tokP1 ∨ pbm.magicNumber = tokP4) ∧
    0 < pbm.width ∧ 0 < pbm.height ∧ Shape pbm.data pbm.width pbm.height

instance {pbm : PBM} : Decidable pbm.Valid := by
  unfold PBM.Valid; infer_instance

/-- A valid PGM image for the `src/unnamed/part_000` codec: positive
dimensions, a supported magic number, max value in `1..255`, the shape
invariant, and 8-bit samples. -/
def Unnamed000.PGM.Valid (pgm : Unnamed000.PGM) : Prop :=
  (pgm.magicNumber = tokP2 ∨ pgm.magicNumber = tokP5) ∧
    0 < pgm.width ∧ 0 < pgm.height ∧ 1 ≤ pgm.max ∧ pgm.max ≤ 255 ∧
    Shape pgm.data pgm.width pgm.height ∧ ∀ row ∈ pgm.data, ∀ v ∈ row, v ≤ 255

instance {pgm : Unnamed000.PGM} : Decidable pgm.Valid := by
  unfold Unnamed000.PGM.Valid; infer_instance

/-- A valid PPM image for the ASCII codec of `src/PBM.go`: positive
dimensions, magic `P3`, max value in `1..255`, the shape invariant, and
8-bit channels. -/
def PPM.Valid (ppm : PPM) : Prop :=
  ppm.magicNumber = tokP3 ∧
    0 < ppm.width ∧ 0 < ppm.height ∧ 1 ≤ ppm.max ∧ ppm.max ≤ 255 ∧
    Shape ppm.data ppm.width ppm.height ∧
    ∀ row ∈ ppm.data, ∀ p ∈ row, p.R ≤ 255 ∧ p.G ≤ 255 ∧ p.B ≤ 255

instance {ppm : PPM} : Decidable ppm.Valid := by
  unfold PPM.Valid; infer_instance

/-! ## Concrete images and streams used by the claims -/

/-- Black pixel. -/
def blackPix : Pixel := ⟨0, 0, 0⟩

/-- Red pixel. -/
def redPix : Pixel := ⟨255, 0, 0⟩

/-- A blank (all-black) 4×4 PPM canvas. -/
def blank4 : PPM :=
  ⟨List.replicate 4 (List.replicate 4 blackPix), 4, 4, tokP3, 255⟩

/-- A 1×1 PPM canvas. -/
def onePix : PPM := ⟨[[blackPix]], 1, 1, tokP3, 255⟩

/-- A 1×1 PGM (part_000 codec) with max value 255 and single sample 200. -/
def gray200 : Unnamed000.PGM := ⟨[[200]], 1, 1, tokP2, 255⟩

/-- A 1×1 PGM (part_001 record) with max value 255 and single sample 200. -/
def gray200b : Unnamed001.PGM := ⟨[[200]], 1, 1, tokP2, 255⟩

/-- A 1×1 PGM (part_000 codec) with max value 255 and single sample 1. -/
def gray1 : Unnamed000.PGM := ⟨[[1]], 1, 1, tokP2, 255⟩

/-- The byte stream of a file whose header declares magic number `P9`:
`"P9\n1 1\n255\n1 2 3\n"`. -/
def p9Stream : List Nat :=
  [80, 57, nl, 49, 32, 49, nl, 50, 53, 53, nl, 49, 32, 50, 32, 51, nl]

/-- A 3×2 ASCII bitmap (magic `P1`). -/
def b1Img : PBM := ⟨[[true, false, true], [false, true, false]], 3, 2, tokP1⟩

/-- A 10×1 binary bitmap (magic `P4`); the width exercises the padding of
the last byte of a packed row. -/
def b4Img : PBM :=
  ⟨[[true, false, true, true, false, false, true, false, true, true]], 10, 1, tokP4⟩

/-- A 2×2 binary graymap (magic `P5`). -/
def g5Img : Unnamed000.PGM := ⟨[[0, 255], [17, 99]], 2, 2, tokP5, 255⟩

/-- A 1×1 pixmap whose pixel `(3, 3, 253)` at max value 63 has exact luma
`31.5 = max/2`: a floating-point tie for the threshold of `PPM.ToPBM`. -/
def tiePix : PPM := ⟨[[⟨3, 3, 253⟩]], 1, 1, tokP3, 63⟩

/-- An 80×500 all-false bitmap (magic `P4`): `Save` writes a valid
5010-byte file whose binary body crosses the 4096-byte `bufio` buffer
mid-row. -/
def bigP4 : PBM := ⟨List.replicate 500 (List.replicate 80 false), 80, 500, tokP4⟩

/-- An 80×60 graymap (magic `P5`): `Save` writes a valid 4813-byte file
whose binary body crosses the 4096-byte `bufio` buffer mid-row. -/
def bigP5 : Unnamed000.PGM :=
  ⟨List.replicate 60 (List.replicate 80 17), 80, 60, tokP5, 255⟩

/-! ## Claim C3 -/

/-- C3: `DrawLine((0,0),(3,3), red)` on a blank 4×4 PPM canvas sets exactly
the four diagonal pixels `(0,0),(1,1),(2,2),(3,3)` to red and leaves every
other pixel unchanged (the result is stated as the complete canvas, so the
equality accounts for every pixel). -/
theorem drawLine_diagonal_4x4 :
    PPM.DrawLine blank4 ⟨0, 0⟩ ⟨3, 3⟩ redPix =
      some ⟨[[redPix, blackPix, blackPix, blackPix],
             [blackPix, redPix, blackPix, blackPix],
             [blackPix, blackPix, redPix, blackPix],
             [blackPix, blackPix, blackPix, redPix]], 4, 4, tokP3, 255⟩ := by
  with_unfolding_all decide

/-! ## Claim C2, counterexample -/

/-- C2 (counterexample): drawing is not silently clipped at the canvas
boundary.  `DrawFilledCircle((0,0), 1, red)` on a 1×1 canvas touches the
out-of-bounds address `(-1, 0)`; `PPM.Set` has no bounds check, so the Go
code panics with an index-out-of-range error (modelled as `none`) — the
operation fails, and even the in-bounds pixel `(0,0)` is never written. -/
theorem drawFilledCircle_oob_panics :
    PPM.DrawFilledCircle onePix ⟨0, 0⟩ 1 redPix = none := by
  with_unfolding_all decide

/-! ## Claim C4, counterexample -/

/-- C4 (counterexample): the `steps == 0` case of `DrawLine` is not
guarded.  For `p1 = p2 = (0,0)` the increment `dx / float64(steps)` is
computed as `0.0 / 0.0`, an executed division by zero whose result is
non-finite (NaN, modelled as `none`). -/
theorem drawLine_degenerate_divides_by_zero :
    lineXIncrement ⟨0, 0⟩ ⟨0, 0⟩ = none := by
  with_unfolding_all decide

/-! ## Claim C5, counterexample -/

/-- C5 (counterexample): the `PGM.ToPBM` of `src/unnamed/part_000` maps the
sample 200 of a max-value-255 graymap to `false`, not `true`: it uses the
dark-pixel test `sample < uint8(max/2)`, i.e. `200 < 127`. -/
theorem toPBM_part000_dark_test :
    (Unnamed000.PGM.ToPBM gray200).data = [[false]] := by
  decide

/-! ## Claim C8 -/

/-- C8: the rescale `PGM.SetMaxValue` of `src/unnamed/part_000` truncates
instead of rounding and never fails.  On a graymap with max value 255 and
sample 1, rescaling to 128 stores `uint8(1 * 128 / 255) = uint8(0.50196…) = 0`
where rounding to nearest would give 1; and rescaling to 0 is accepted
without any `InvalidMaxValue` error (the function has no error path at
all), silently zeroing the sample and storing max value 0. -/
theorem setMaxValue_truncates_no_error :
    Unnamed000.PGM.SetMaxValue gray1 128 = ⟨[[0]], 1, 1, tokP2, 128⟩ ∧
      Unnamed000.PGM.SetMaxValue gray1 0 = ⟨[[0]], 1, 1, tokP2, 0⟩ := by
  constructor
  · with_unfolding_all decide
  · with_unfolding_all decide

/-! ## Claim C9, counterexample -/

/-- C9 (counterexample): `ReadPPM` performs no magic-number validation.
Decoding the stream `"P9\n1 1\n255\n1 2 3\n"` does not fail: it returns an
image carrying the unrecognized magic number `P9`. -/
theorem readPPM_accepts_P9 :
    ReadPPM p9Stream = some ⟨[[⟨1, 2, 3⟩]], 1, 1, [80, 57], 255⟩ := by
  decide

/-! ## GFloat computation lemmas -/

theorem goInt_gfOfInt (n : Int) : goInt (gfOfInt n) = n := by
  show Int.tdiv ((n : ℚ)).num (((n : ℚ)).den : Int) = n
  rw [Rat.num_intCast, Rat.den_intCast]
  exact Int.tdiv_one n

theorem gfAbs_gfOfInt_zero : gfAbs (gfOfInt 0) = some 0 := by
  unfold gfAbs gfOfInt
  simp

theorem gfMax_self (a : ℚ) : gfMax (some a) (some a) = some a := by
  unfold gfMax
  simp

theorem goInt_zero : goInt (some 0) = 0 := by
  show Int.tdiv ((0 : ℚ)).num (((0 : ℚ)).den : Int) = 0
  simp

/-- `DrawLine(p, p, c)` reduces to the single call `Set(p.X, p.Y, c)`:
`steps` is 0, so the loop runs once with the still-exact coordinates of
`p`; the NaN increments produced by the unguarded `0/0` divisions are
added to `x`, `y` only after that single `Set`. -/
theorem drawLine_self_eq_set (ppm : PPM) (p : Point) (c : Pixel) :
    ppm.DrawLine p p c = ppm.Set p.X p.Y c := by
  unfold PPM.DrawLine
  rw [sub_self, sub_self, gfAbs_gfOfInt_zero, gfMax_self, goInt_zero]
  show drawLineLoop c _ _ 1 (gfOfInt p.X) (gfOfInt p.Y) (some ppm) = _
  unfold drawLineLoop
  unfold drawLineLoop
  rw [goInt_gfOfInt, goInt_gfOfInt, Option.some_bind]

/-! ## List index helpers -/

theorem getD_mem_of_lt {α : Type} {l : List α} {i : Nat} (d : α) (h : i < l.length) :
    l.getD i d ∈ l := by
  rw [List.getD_eq_getElem?_getD, List.getElem?_eq_getElem h]
  exact List.getElem_mem h

/-! ## The `PPM.Set` contract (used by claims C2 and C4) -/

/-- `PPM.Set` succeeds exactly on coordinates inside the canvas: on a
raster of the declared shape, `Set` panics (`none`) if and only if the
address is out of bounds. -/
theorem set_none_iff (ppm : PPM) (x y : Int) (c : Pixel)
    (hsh : Shape ppm.data ppm.width ppm.height) :
    (ppm.Set x y c = none ↔
      ¬ (0 ≤ x ∧ x < (ppm.width : Int) ∧ 0 ≤ y ∧ y < (ppm.height : Int))) := by
  obtain ⟨hlen, hrows⟩ := hsh
  unfold PPM.Set
  by_cases hy : 0 ≤ y ∧ y.toNat < ppm.data.length
  · have hwl : (ppm.data.getD y.toNat []).length = ppm.width :=
      hrows _ (getD_mem_of_lt [] hy.2)
    rw [if_pos hy]
    by_cases hx : 0 ≤ x ∧ x.toNat < (ppm.data.getD y.toNat []).length
    · rw [if_pos hx]
      simp only [reduceCtorEq, false_iff, not_not]
      rw [hwl] at hx
      refine ⟨hx.1, by omega, hy.1, by omega⟩
    · rw [if_neg hx, hwl] at *
      simp only [true_iff]
      intro hcontra
      obtain ⟨hx0, hxw, hy0, hyh⟩ := hcontra
      exact hx ⟨hx0, by omega⟩
  · rw [if_neg hy, hlen] at *
    simp only [true_iff]
    intro hcontra
    obtain ⟨hx0, hxw, hy0, hyh⟩ := hcontra
    exact hy ⟨hy0, by omega⟩

/-- On an in-bounds address, `PPM.Set` writes exactly that pixel of the
raster (every other entry of `data` is untouched by `List.set`). -/
theorem set_in_bounds (ppm : PPM) (x y : Int) (c : Pixel)
    (hsh : Shape ppm.data ppm.width ppm.height)
    (hx0 : 0 ≤ x) (hxw : x < (ppm.width : Int)) (hy0 : 0 ≤ y) (hyh : y < (ppm.height : Int)) :
    ppm.Set x y c =
      some { ppm with data := ppm.data.set y.toNat ((ppm.data.getD y.toNat []).set x.toNat c) } := by
  obtain ⟨hlen, hrows⟩ := hsh
  have hy : 0 ≤ y ∧ y.toNat < ppm.data.length := ⟨hy0, by omega⟩
  have hwl : (ppm.data.getD y.toNat []).length = ppm.width :=
    hrows _ (getD_mem_of_lt [] hy.2)
  unfold PPM.Set
  rw [if_pos hy, if_pos ⟨hx0, by omega⟩]

/-! ## Claim C2, amended -/

/-- C2 (amended): out-of-bounds pixel addresses are not silently skipped.
`PPM.Set`, through which every drawing operation writes, performs no
bounds check: on a canvas of the declared shape, a `Set` whose address is
outside the canvas makes the operation fail with Go's index-out-of-range
panic (modelled as `none`) instead of clipping, while an in-bounds address
is written as expected. -/
theorem set_unchecked_bounds :
    ∀ (ppm : PPM) (x y : Int) (c : Pixel), Shape ppm.data ppm.width ppm.height →
      (ppm.Set x y c = none ↔
        ¬ (0 ≤ x ∧ x < (ppm.width : Int) ∧ 0 ≤ y ∧ y < (ppm.height : Int))) ∧
      ((0 ≤ x ∧ x < (ppm.width : Int) ∧ 0 ≤ y ∧ y < (ppm.height : Int)) →
        ppm.Set x y c =
          some { ppm with
            data := ppm.data.set y.toNat ((ppm.data.getD y.toNat []).set x.toNat c) }) := by
  intro ppm x y c hsh
  exact ⟨set_none_iff ppm x y c hsh,
    fun h => set_in_bounds ppm x y c hsh h.1 h.2.1 h.2.2.1 h.2.2.2⟩

/-- Witness for the amended C2: on the 1×1 canvas, `Set` at `(0,0)` writes
the pixel and `Set` at `(1,0)` panics. -/
theorem set_unchecked_bounds_witness :
    onePix.Set 0 0 redPix = some ⟨[[redPix]], 1, 1, tokP3, 255⟩ ∧
      onePix.Set 1 0 redPix = none := by
  constructor
  · have h := (set_unchecked_bounds onePix 0 0 redPix (by decide)).2
      ⟨by decide, by decide, by decide, by decide⟩
    rw [h]
    decide
  · rw [(set_unchecked_bounds onePix 1 0 redPix (by decide)).1]
    decide

theorem getD_set_self {l : List Nat} {i : Nat} (v : Nat) (h : i < l.length) :
    (l.set i v).getD i 0 = v := by
  simp [List.getD_eq_getElem?_getD, List.getElem?_set_self h]

theorem getD_set_ne {l : List Nat} {i j : Nat} (v : Nat) (h : i ≠ j) :
    (l.set i v).getD j 0 = l.getD j 0 := by
  simp [List.getD_eq_getElem?_getD, List.getElem?_set_ne h]

theorem getD_replicate_zero {n i : Nat} : (List.replicate n (0 : Nat)).getD i 0 = 0 := by
  rw [List.getD_eq_getElem?_getD, List.getElem?_replicate]
  split <;> rfl

/-! ## Grid read-back helper -/

theorem getD_map_range {α : Type} {n i : Nat} (f : Nat → α) (d : α) (h : i < n) :
    ((List.range n).map f).getD i d = f i := by
  rw [List.getD_eq_getElem?_getD, List.getElem?_map, List.getElem?_range h]
  rfl

/-! ## Claim C5, amended -/

/-- C5 (amended): the three bitmap conversions do not agree on the
threshold, and the PPM threshold is a `float64` comparison, not the exact
one.  `PPM.ToPBM` yields true exactly when the `float64` luma — every
operation of `0.299R + 0.587G + 0.114B` rounded to the nearest double —
exceeds `max/2`; this differs from "the exact luma exceeds `max/2`" at
floating-point ties: the pixel `(3, 3, 253)` at max value 63 has exact
luma equal to `max/2` (so it does not exceed it), yet the rounded
computation does exceed `31.5` and the pixel converts to true.  The
`PGM.ToPBM` of `src/unnamed/part_001` yields true exactly when the sample
exceeds `uint8(max/2)` (truncating division) — under which a max-255
sample of 200 maps to true; but the `PGM.ToPBM` of `src/unnamed/part_000`
uses the opposite dark-pixel test, true exactly when the sample is
*below* `uint8(max/2)`, mapping that sample to false. -/
theorem toPBM_threshold_directions :
    (∀ (p : PPM) (i j : Nat), i < p.height → j < p.width →
      ((PPM.ToPBM p).data.getD i []).getD j false =
        decide (flLuma ((p.data.getD i []).getD j default) > fl (p.max : ℚ) / 2)) ∧
    (∀ (g : Unnamed001.PGM) (i j : Nat), i < g.height → j < g.width →
      ((Unnamed001.PGM.ToPBM g).data.getD i []).getD j false =
        decide ((g.data.getD i []).getD j 0 > (Int.tdiv g.max 2 |>.emod 256).toNat)) ∧
    (∀ (g : Unnamed000.PGM) (i j : Nat), i < g.height → j < g.width →
      ((Unnamed000.PGM.ToPBM g).data.getD i []).getD j false =
        decide ((g.data.getD i []).getD j 0 < g.max / 2 % 256)) ∧
    (Unnamed001.PGM.ToPBM gray200b).data = [[true]] ∧
    (Unnamed000.PGM.ToPBM gray200).data = [[false]] ∧
    (PPM.ToPBM tiePix).data = [[true]] ∧
    lumaSpec ⟨3, 3, 253⟩ = (63 : ℚ) / 2 := by
  refine ⟨fun p i j hi hj => ?_, fun g i j hi hj => ?_, fun g i j hi hj => ?_,
    by decide, by decide, by with_unfolding_all decide, by with_unfolding_all decide⟩
  · show ((((List.range p.height).map _).getD i []).getD j false) = _
    rw [getD_map_range _ [] hi, getD_map_range _ false hj]
  · show ((((List.range g.height).map _).getD i []).getD j false) = _
    rw [getD_map_range _ [] hi, getD_map_range _ false hj]
  · show ((((List.range g.height).map _).getD i []).getD j false) = _
    rw [getD_map_range _ [] hi, getD_map_range _ false hj]

/-- Witness for the amended C5: the threshold formulas evaluated on the
concrete max-255 sample-200 graymaps and on the tie-pixel pixmap. -/
theorem toPBM_threshold_directions_witness :
    ((Unnamed001.PGM.ToPBM gray200b).data.getD 0 []).getD 0 false = true ∧
      ((Unnamed000.PGM.ToPBM gray200).data.getD 0 []).getD 0 false = false ∧
      ((PPM.ToPBM tiePix).data.getD 0 []).getD 0 false = true := by
  refine ⟨?_, ?_, ?_⟩
  · rw [toPBM_threshold_directions.2.1 gray200b 0 0 (by decide) (by decide)]
    with_unfolding_all decide
  · rw [toPBM_threshold_directions.2.2.1 gray200 0 0 (by decide) (by decide)]
    decide
  · rw [toPBM_threshold_directions.1 tiePix 0 0 (by decide) (by decide)]
    with_unfolding_all decide

/-! ## First line of the buffered reader -/

theorem findNl_cons (b : Nat) (bs : List Nat) :
    findNl (b :: bs) = if b = nl then some 0 else (findNl bs).map (· + 1) := rfl

/-- `readLine` as the split of a stream at its first newline. -/
theorem readLine_eq_findNl (s : List Nat) :
    readLine s = (findNl s).map fun i => (s.take (i + 1), s.drop (i + 1)) := by
  induction s with
  | nil => rfl
  | cons b bs ih =>
    show (if b = nl then some ([nl], bs)
      else match readLine bs with
        | some (l, r) => some (b :: l, r)
        | none => none) = _
    rw [findNl_cons]
    by_cases hb : b = nl
    · rw [if_pos hb, if_pos hb]
      subst hb
      rfl
    · rw [if_neg hb, if_neg hb, ih]
      cases findNl bs <;> rfl

/-- Whenever the whole stream has a first line, `ReadString('\n')` on a
fresh buffered reader returns exactly that line. -/
theorem readStringNl_first {s l r : List Nat} (h : readLine s = some (l, r)) :
    ∃ st, readStringNl ([], s) = some (l, st) := by
  rw [readLine_eq_findNl] at h
  cases hf : findNl s with
  | none => rw [hf] at h; exact Option.noConfusion h
  | some i =>
    rw [hf, show Option.map (fun i => (s.take (i + 1), s.drop (i + 1))) (some i) =
      some (s.take (i + 1), s.drop (i + 1)) from rfl] at h
    injection h with h
    rw [show l = s.take (i + 1) from congrArg Prod.fst h.symm]
    refine ⟨(((s.drop (bufSize * (i / bufSize))).take bufSize).drop (i % bufSize + 1),
      s.drop (bufSize * (i / bufSize + 1))), ?_⟩
    unfold readStringNl
    simp only [show findNl ([] : List Nat) = none from rfl, hf, List.nil_append,
      List.length_nil, Nat.zero_add]

/-! ## Claim C9, amended -/

/-- C9 (amended): the decoders that validate the magic number — `ReadPBM`
(`P1`/`P4`) and the `ReadPGM` of `src/unnamed/part_000` (`P2`/`P5`) — fail
with an error and return no image on any other magic token, such as `P9`;
but `ReadPPM` performs no magic-number validation at all and successfully
returns an image carrying the unrecognized token. -/
theorem magic_validation :
    (∀ (s mLine rest : List Nat), readLine s = some (mLine, rest) →
      trimSpace mLine ≠ tokP1 → trimSpace mLine ≠ tokP4 → ReadPBM s = none) ∧
    (∀ (s mLine rest : List Nat), readLine s = some (mLine, rest) →
      trimSpace mLine ≠ tokP2 → trimSpace mLine ≠ tokP5 → Unnamed000.ReadPGM s = none) ∧
    ReadPPM p9Stream = some ⟨[[⟨1, 2, 3⟩]], 1, 1, [80, 57], 255⟩ := by
  refine ⟨?_, ?_, by decide⟩
  · intro s mLine rest hrl h1 h4
    obtain ⟨st, hB⟩ := readStringNl_first hrl
    unfold ReadPBM
    rw [hB]
    exact if_pos ⟨h1, h4⟩
  · intro s mLine rest hrl h2 h5
    obtain ⟨st, hB⟩ := readStringNl_first hrl
    unfold Unnamed000.ReadPGM
    rw [hB]
    exact if_pos ⟨h2, h5⟩

/-- Witness for the amended C9: both validating decoders reject the
concrete `P9` stream. -/
theorem magic_validation_witness :
    ReadPBM p9Stream = none ∧ Unnamed000.ReadPGM p9Stream = none :=
  ⟨magic_validation.1 p9Stream [80, 57, nl] (p9Stream.drop 3) (by decide) (by decide) (by decide),
    magic_validation.2.1 p9Stream [80, 57, nl] (p9Stream.drop 3) (by decide) (by decide)
      (by decide)⟩

/-! ## Rotation lemmas (claim C7) -/

theorem grid_ext {α : Type} (d : α) (d1 d2 : List (List α)) (w h : Nat)
    (hs1 : Shape d1 w h) (hs2 : Shape d2 w h)
    (hpix : ∀ r c, r < h → c < w → (d1.getD r []).getD c d = (d2.getD r []).getD c d) :
    d1 = d2 := by
  apply List.ext_getElem
  · rw [hs1.1, hs2.1]
  intro r h1 h2
  apply List.ext_getElem
  · rw [hs1.2 _ (List.getElem_mem h1), hs2.2 _ (List.getElem_mem h2)]
  intro c hc1 hc2
  have hr : r < h := by rw [← hs1.1]; exact h1
  have hcw : c < w := by rw [← hs1.2 _ (List.getElem_mem h1)]; exact hc1
  have hpx := hpix r c hr hcw
  rw [List.getD_eq_getElem d1 [] h1, List.getD_eq_getElem d2 [] h2,
    List.getD_eq_getElem _ d hc1, List.getD_eq_getElem _ d hc2] at hpx
  exact hpx

theorem rotPPM_width (p : PPM) : p.Rotate90CW.width = p.height := rfl

theorem rotPPM_height (p : PPM) : p.Rotate90CW.height = p.width := rfl

theorem rotPPM_magic (p : PPM) : p.Rotate90CW.magicNumber = p.magicNumber := rfl

theorem rotPPM_max (p : PPM) : p.Rotate90CW.max = p.max := rfl

theorem rotPPM_shape (p : PPM) :
    Shape p.Rotate90CW.data p.Rotate90CW.width p.Rotate90CW.height := by
  constructor
  · show ((List.range p.width).map _).length = p.width
    simp
  · intro row hrow
    show row.length = p.height
    obtain ⟨j, -, rfl⟩ := List.mem_map.mp hrow
    simp

theorem rotPPM_pix (p : PPM) (i j : Nat) (hi : i < p.width) (hj : j < p.height) :
    (p.Rotate90CW.data.getD i []).getD j default =
      (p.data.getD (p.height - 1 - j) []).getD i default := by
  show ((((List.range p.width).map _).getD i []).getD j default) = _
  rw [getD_map_range _ [] hi, getD_map_range _ default hj]

theorem PBM_ext {a b : PBM} (h1 : a.data = b.data) (h2 : a.width = b.width)
    (h3 : a.height = b.height) (h4 : a.magicNumber = b.magicNumber) : a = b := by
  cases a
  cases b
  simp_all

theorem PPM_ext {a b : PPM} (h1 : a.data = b.data) (h2 : a.width = b.width)
    (h3 : a.height = b.height) (h4 : a.magicNumber = b.magicNumber) (h5 : a.max = b.max) :
    a = b := by
  cases a
  cases b
  simp_all

theorem rotPPM_four (p : PPM) (hsh : Shape p.data p.width p.height) :
    p.Rotate90CW.Rotate90CW.Rotate90CW.Rotate90CW = p := by
  refine PPM_ext ?_ rfl rfl rfl rfl
  apply grid_ext default _ _ p.width p.height
  · exact rotPPM_shape _
  · exact hsh
  · intro r c hr hc
    have e1 : p.height - 1 - (p.height - 1 - r) = r := by omega
    have e2 : p.width - 1 - (p.width - 1 - c) = c := by omega
    rw [rotPPM_pix _ r c (by exact hr) (by exact hc),
      show p.Rotate90CW.Rotate90CW.Rotate90CW.height = p.width from rfl,
      rotPPM_pix _ (p.width - 1 - c) r (by show p.width - 1 - c < p.width; omega)
        (by exact hr),
      show p.Rotate90CW.Rotate90CW.height = p.height from rfl,
      rotPPM_pix _ (p.height - 1 - r) (p.width - 1 - c)
        (by show p.height - 1 - r < p.height; omega)
        (by show p.width - 1 - c < p.width; omega),
      show p.Rotate90CW.height = p.width from rfl, e2,
      rotPPM_pix _ c (p.height - 1 - r) (by exact hc)
        (by show p.height - 1 - r < p.height; omega),
      e1]

/-! ## Rotation lemmas for the part_000 PGM -/

theorem rotPGM_unfold (g : Unnamed000.PGM) (hw : 0 < g.width) (hh : 0 < g.height) :
    g.Rotate90CW =
      { g with
        data := (List.range g.width).map fun i =>
          (List.range g.height).map fun j =>
            (g.data.getD (g.height - 1 - j) []).getD i 0,
        width := g.height,
        height := g.width } := by
  unfold Unnamed000.PGM.Rotate90CW
  rw [if_neg]
  omega

theorem rotPGM_width (g : Unnamed000.PGM) (hw : 0 < g.width) (hh : 0 < g.height) :
    g.Rotate90CW.width = g.height := by
  rw [rotPGM_unfold g hw hh]

theorem rotPGM_height (g : Unnamed000.PGM) (hw : 0 < g.width) (hh : 0 < g.height) :
    g.Rotate90CW.height = g.width := by
  rw [rotPGM_unfold g hw hh]

theorem rotPGM_shape (g : Unnamed000.PGM) (hw : 0 < g.width) (hh : 0 < g.height) :
    Shape g.Rotate90CW.data g.Rotate90CW.width g.Rotate90CW.height := by
  rw [rotPGM_unfold g hw hh]
  constructor
  · simp
  · intro row hrow
    obtain ⟨j, -, rfl⟩ := List.mem_map.mp hrow
    simp

theorem rotPGM_pix (g : Unnamed000.PGM) (hw : 0 < g.width) (hh : 0 < g.height)
    (i j : Nat) (hi : i < g.width) (hj : j < g.height) :
    (g.Rotate90CW.data.getD i []).getD j 0 =
      (g.data.getD (g.height - 1 - j) []).getD i 0 := by
  rw [rotPGM_unfold g hw hh]
  show ((((List.range g.width).map _).getD i []).getD j 0) = _
  rw [getD_map_range _ [] hi, getD_map_range _ 0 hj]

theorem PGM000_ext {a b : Unnamed000.PGM} (h1 : a.data = b.data) (h2 : a.width = b.width)
    (h3 : a.height = b.height) (h4 : a.magicNumber = b.magicNumber) (h5 : a.max = b.max) :
    a = b := by
  cases a
  cases b
  simp_all

theorem rotPGM_four (g : Unnamed000.PGM) (hw : 0 < g.width) (hh : 0 < g.height)
    (hsh : Shape g.data g.width g.height) :
    g.Rotate90CW.Rotate90CW.Rotate90CW.Rotate90CW = g := by
  have hw1 : 0 < g.Rotate90CW.width := by rw [rotPGM_width g hw hh]; exact hh
  have hh1 : 0 < g.Rotate90CW.height := by rw [rotPGM_height g hw hh]; exact hw
  have hw2 : 0 < g.Rotate90CW.Rotate90CW.width := by
    rw [rotPGM_width _ hw1 hh1, rotPGM_height _ hw hh]; exact hw
  have hh2 : 0 < g.Rotate90CW.Rotate90CW.height := by
    rw [rotPGM_height _ hw1 hh1, rotPGM_width _ hw hh]; exact hh
  have hw3 : 0 < g.Rotate90CW.Rotate90CW.Rotate90CW.width := by
    rw [rotPGM_width _ hw2 hh2, rotPGM_height _ hw1 hh1, rotPGM_width _ hw hh]; exact hh
  have hh3 : 0 < g.Rotate90CW.Rotate90CW.Rotate90CW.height := by
    rw [rotPGM_height _ hw2 hh2, rotPGM_width _ hw1 hh1, rotPGM_height _ hw hh]; exact hw
  refine PGM000_ext ?_ ?_ ?_ ?_ ?_
  case refine_2 =>
    rw [rotPGM_width _ hw3 hh3, rotPGM_height _ hw2 hh2, rotPGM_width _ hw1 hh1,
      rotPGM_height _ hw hh]
  case refine_3 =>
    rw [rotPGM_height _ hw3 hh3, rotPGM_width _ hw2 hh2, rotPGM_height _ hw1 hh1,
      rotPGM_width _ hw hh]
  case refine_4 =>
    rw [rotPGM_unfold _ hw3 hh3, rotPGM_unfold _ hw2 hh2, rotPGM_unfold _ hw1 hh1,
      rotPGM_unfold _ hw hh]
  case refine_5 =>
    rw [rotPGM_unfold _ hw3 hh3, rotPGM_unfold _ hw2 hh2, rotPGM_unfold _ hw1 hh1,
      rotPGM_unfold _ hw hh]
  case refine_1 =>
    apply grid_ext 0 _ _ g.width g.height
    · have hsh4 := rotPGM_shape _ hw3 hh3
      rw [rotPGM_width _ hw3 hh3, rotPGM_height _ hw3 hh3, rotPGM_height _ hw2 hh2,
        rotPGM_width _ hw2 hh2, rotPGM_width _ hw1 hh1, rotPGM_height _ hw1 hh1,
        rotPGM_width _ hw hh, rotPGM_height _ hw hh] at hsh4
      exact hsh4
    · exact hsh
    · intro r c hr hc
      have e1 : g.height - 1 - (g.height - 1 - r) = r := by omega
      have e2 : g.width - 1 - (g.width - 1 - c) = c := by omega
      rw [rotPGM_pix _ hw3 hh3 r c
          (by rw [rotPGM_width _ hw2 hh2, rotPGM_height _ hw1 hh1, rotPGM_width _ hw hh]
              exact hr)
          (by rw [rotPGM_height _ hw2 hh2, rotPGM_width _ hw1 hh1, rotPGM_height _ hw hh]
              exact hc),
        show g.Rotate90CW.Rotate90CW.Rotate90CW.height =
          g.width from by
            rw [rotPGM_height _ hw2 hh2, rotPGM_width _ hw1 hh1, rotPGM_height _ hw hh],
        rotPGM_pix _ hw2 hh2 (g.width - 1 - c) r
          (by rw [rotPGM_width _ hw1 hh1, rotPGM_height _ hw hh]; omega)
          (by rw [rotPGM_height _ hw1 hh1, rotPGM_width _ hw hh]; exact hr),
        show g.Rotate90CW.Rotate90CW.height = g.height from by
          rw [rotPGM_height _ hw1 hh1, rotPGM_width _ hw hh],
        rotPGM_pix _ hw1 hh1 (g.height - 1 - r) (g.width - 1 - c)
          (by rw [rotPGM_width _ hw hh]; omega)
          (by rw [rotPGM_height _ hw hh]; omega),
        show g.Rotate90CW.height = g.width from rotPGM_height _ hw hh, e2,
        rotPGM_pix _ hw hh c (g.height - 1 - r) (by exact hc) (by omega),
        e1]

/-! ## Claim C7 -/

/-- C7: `Rotate90CW` (both the `PPM` version of `src/PBM.go` and the `PGM`
version of `src/unnamed/part_000`) produces a raster of swapped dimensions
in which output row `i`, column `j` holds input row `height-1-j`, column
`i`, swapping the stored width and height in the same operation; and four
applications restore the image exactly (dimensions and every pixel). -/
theorem rotate90cw_spec :
    (∀ p : PPM, Shape p.data p.width p.height →
      p.Rotate90CW.width = p.height ∧ p.Rotate90CW.height = p.width ∧
      Shape p.Rotate90CW.data p.Rotate90CW.width p.Rotate90CW.height ∧
      (∀ i j, i < p.width → j < p.height →
        (p.Rotate90CW.data.getD i []).getD j default =
          (p.data.getD (p.height - 1 - j) []).getD i default) ∧
      p.Rotate90CW.Rotate90CW.Rotate90CW.Rotate90CW = p) ∧
    (∀ g : Unnamed000.PGM, 0 < g.width → 0 < g.height → Shape g.data g.width g.height →
      g.Rotate90CW.width = g.height ∧ g.Rotate90CW.height = g.width ∧
      Shape g.Rotate90CW.data g.Rotate90CW.width g.Rotate90CW.height ∧
      (∀ i j, i < g.width → j < g.height →
        (g.Rotate90CW.data.getD i []).getD j 0 =
          (g.data.getD (g.height - 1 - j) []).getD i 0) ∧
      g.Rotate90CW.Rotate90CW.Rotate90CW.Rotate90CW = g) := by
  constructor
  · intro p hsh
    exact ⟨rfl, rfl, rotPPM_shape p, fun i j hi hj => rotPPM_pix p i j hi hj,
      rotPPM_four p hsh⟩
  · intro g hw hh hsh
    exact ⟨rotPGM_width g hw hh, rotPGM_height g hw hh, rotPGM_shape g hw hh,
      fun i j hi hj => rotPGM_pix g hw hh i j hi hj, rotPGM_four g hw hh hsh⟩

/-- Witness for C7: the rotation contract evaluated on a concrete
asymmetric 2×1 pixmap and 2×1 graymap. -/
theorem rotate90cw_spec_witness :
    (PPM.Rotate90CW ⟨[[redPix, blackPix]], 2, 1, tokP3, 255⟩).data = [[redPix], [blackPix]] ∧
      (Unnamed000.PGM.Rotate90CW
          ⟨[[5, 9]], 2, 1, tokP2, 255⟩).Rotate90CW.Rotate90CW.Rotate90CW =
        ⟨[[5, 9]], 2, 1, tokP2, 255⟩ := by
  have h1 := (rotate90cw_spec.1 ⟨[[redPix, blackPix]], 2, 1, tokP3, 255⟩ (by decide)).2.2.2.1
  have h2 := (rotate90cw_spec.2 ⟨[[5, 9]], 2, 1, tokP2, 255⟩ (by decide) (by decide)
    (by decide)).2.2.2.2
  refine ⟨?_, h2⟩
  have e00 := h1 0 0 (by decide) (by decide)
  have e10 := h1 1 0 (by decide) (by decide)
  apply grid_ext default _ _ 1 2
  · exact (rotate90cw_spec.1 ⟨[[redPix, blackPix]], 2, 1, tokP3, 255⟩ (by decide)).2.2.1
  · exact ⟨rfl, by intro row hrow; simp at hrow; rcases hrow with rfl | rfl <;> rfl⟩
  · intro r c hr hc
    interval_cases r <;> interval_cases c <;> simp_all

/-! ## Frame-effect lemmas (claim C10) -/

theorem swapIdx_length {α : Type} [Inhabited α] (l : List α) (a b : Nat) :
    (swapIdx l a b).length = l.length := by
  simp [swapIdx]

theorem foldl_swapIdx_length {α : Type} [Inhabited α] (g : Nat → Nat) :
    ∀ (idxs : List Nat) (l : List α),
      (idxs.foldl (fun acc i => swapIdx acc i (g i)) l).length = l.length := by
  intro idxs
  induction idxs with
  | nil => intro l; rfl
  | cons i is ih =>
    intro l
    rw [List.foldl_cons, ih, swapIdx_length]

theorem foldl_swapIdx_forall {α : Type} [Inhabited α] (g : Nat → Nat) (P : α → Prop)
    (n : Nat) :
    ∀ (idxs : List Nat) (l : List α), l.length = n → (∀ i ∈ idxs, i < n ∧ g i < n) →
      (∀ r ∈ l, P r) →
      ∀ r ∈ idxs.foldl (fun acc i => swapIdx acc i (g i)) l, P r := by
  intro idxs
  induction idxs with
  | nil => intro l _ _ hP; exact hP
  | cons i is ih =>
    intro l hlen hb hP
    rw [List.foldl_cons]
    apply ih
    · rw [swapIdx_length, hlen]
    · intro j hj
      exact hb j (by simp [hj])
    · have hi := hb i (by simp)
      intro r hr
      unfold swapIdx at hr
      rcases List.mem_or_eq_of_mem_set hr with hr1 | rfl
      · rcases List.mem_or_eq_of_mem_set hr1 with hr2 | rfl
        · exact hP _ hr2
        · exact hP _ (getD_mem_of_lt default (by rw [hlen]; exact hi.2))
      · exact hP _ (getD_mem_of_lt default (by rw [hlen]; exact hi.1))

theorem mapGrid_shape {α : Type} (h w : Nat) (f : α → α) (data : List (List α))
    {w' h' : Nat} (hsh : Shape data w' h') : Shape (mapGrid h w f data) w' h' := by
  obtain ⟨hlen, hrows⟩ := hsh
  unfold mapGrid
  constructor
  · rw [List.length_mapIdx, hlen]
  · intro row hrow
    obtain ⟨i, hi, hget⟩ := List.mem_iff_getElem.mp hrow
    rw [List.getElem_mapIdx] at hget
    have hil : i < data.length := by simpa using hi
    have hl : (data.get ⟨i, hil⟩).length = w' := hrows _ (List.getElem_mem _)
    rw [← hget]
    split
    · rw [List.length_mapIdx]
      exact hl
    · exact hl

theorem flipRows_shape {α : Type} [Inhabited α] (w h : Nat) (data : List (List α))
    {w' h' : Nat} (hsh : Shape data w' h') :
    Shape (data.mapIdx fun i row =>
      if i < h then (List.range (w / 2)).foldl (fun r j => swapIdx r j (w - j - 1)) row
      else row) w' h' := by
  obtain ⟨hlen, hrows⟩ := hsh
  constructor
  · rw [List.length_mapIdx, hlen]
  · intro row hrow
    obtain ⟨i, hi, hget⟩ := List.mem_iff_getElem.mp hrow
    rw [List.getElem_mapIdx] at hget
    have hil : i < data.length := by simpa using hi
    have hmem : data.get ⟨i, hil⟩ ∈ data := List.getElem_mem _
    have hl : (data.get ⟨i, hil⟩).length = w' := hrows _ hmem
    rw [← hget]
    split
    · rw [foldl_swapIdx_length]
      exact hl
    · exact hl

theorem flop_shape {α : Type} (h : Nat) (data : List (List α)) {w' h' : Nat}
    (hsh : Shape data w' h') (hhl : h ≤ h') :
    Shape ((List.range (h / 2)).foldl (fun d i => swapIdx d i (h - i - 1)) data) w' h' := by
  obtain ⟨hlen, hrows⟩ := hsh
  constructor
  · rw [foldl_swapIdx_length, hlen]
  · by_cases hz : h = 0
    · subst hz
      simpa using hrows
    · refine foldl_swapIdx_forall _ (fun row => row.length = w') h' _ data hlen ?_ hrows
      intro i hi
      have := List.mem_range.mp hi
      omega

/-! ## Claim C10 -/

/-- C10: the in-place transforms `Invert`, `Flip` and `Flop` of all three
image types (`PBM` and `PPM` of `src/PBM.go`, `PGM` of
`src/unnamed/part_000`) leave width, height, magic number and, where
present, max value unchanged, and preserve the raster-shape invariant of
`height` rows of `width` samples. -/
theorem invert_flip_flop_frame :
    (∀ b : PBM, Shape b.data b.width b.height →
      (Shape b.Invert.data b.width b.height ∧ b.Invert.width = b.width ∧
        b.Invert.height = b.height ∧ b.Invert.magicNumber = b.magicNumber) ∧
      (Shape b.Flip.data b.width b.height ∧ b.Flip.width = b.width ∧
        b.Flip.height = b.height ∧ b.Flip.magicNumber = b.magicNumber) ∧
      (Shape b.Flop.data b.width b.height ∧ b.Flop.width = b.width ∧
        b.Flop.height = b.height ∧ b.Flop.magicNumber = b.magicNumber)) ∧
    (∀ g : Unnamed000.PGM, Shape g.data g.width g.height →
      (Shape g.Invert.data g.width g.height ∧ g.Invert.width = g.width ∧
        g.Invert.height = g.height ∧ g.Invert.magicNumber = g.magicNumber ∧
        g.Invert.max = g.max) ∧
      (Shape g.Flip.data g.width g.height ∧ g.Flip.width = g.width ∧
        g.Flip.height = g.height ∧ g.Flip.magicNumber = g.magicNumber ∧
        g.Flip.max = g.max) ∧
      (Shape g.Flop.data g.width g.height ∧ g.Flop.width = g.width ∧
        g.Flop.height = g.height ∧ g.Flop.magicNumber = g.magicNumber ∧
        g.Flop.max = g.max)) ∧
    (∀ p : PPM, Shape p.data p.width p.height →
      (Shape p.Invert.data p.width p.height ∧ p.Invert.width = p.width ∧
        p.Invert.height = p.height ∧ p.Invert.magicNumber = p.magicNumber ∧
        p.Invert.max = p.max) ∧
      (Shape p.Flip.data p.width p.height ∧ p.Flip.width = p.width ∧
        p.Flip.height = p.height ∧ p.Flip.magicNumber = p.magicNumber ∧
        p.Flip.max = p.max) ∧
      (Shape p.Flop.data p.width p.height ∧ p.Flop.width = p.width ∧
        p.Flop.height = p.height ∧ p.Flop.magicNumber = p.magicNumber ∧
        p.Flop.max = p.max)) := by
  refine ⟨fun b hsh => ?_, fun g hsh => ?_, fun p hsh => ?_⟩
  · refine ⟨⟨mapGrid_shape _ _ _ _ hsh, rfl, rfl, rfl⟩,
      ⟨flipRows_shape _ _ _ hsh, rfl, rfl, rfl⟩,
      ⟨flop_shape _ _ hsh (le_of_eq rfl), rfl, rfl, rfl⟩⟩
  · refine ⟨⟨?_, rfl, rfl, rfl, rfl⟩, ⟨?_, rfl, rfl, rfl, rfl⟩,
      ⟨flop_shape _ _ hsh (le_of_eq rfl), rfl, rfl, rfl, rfl⟩⟩
    · obtain ⟨hlen, hrows⟩ := hsh
      constructor
      · show (g.data.map fun row => row.map (u8Sub g.max)).length = g.height
        rw [List.length_map]
        exact hlen
      · intro row hrow
        have hrow' : row ∈ g.data.map fun row => row.map (u8Sub g.max) := hrow
        obtain ⟨r0, hr0, rfl⟩ := List.mem_map.mp hrow'
        show (r0.map (u8Sub g.max)).length = g.width
        rw [List.length_map]
        exact hrows _ hr0
    · obtain ⟨hlen, hrows⟩ := hsh
      constructor
      · show (g.data.map fun row =>
            (List.range (row.length / 2)).foldl
              (fun r j => swapIdx r j (row.length - j - 1)) row).length = g.height
        rw [List.length_map]
        exact hlen
      · intro row hrow
        have hrow' : row ∈ g.data.map fun row =>
            (List.range (row.length / 2)).foldl
              (fun r j => swapIdx r j (row.length - j - 1)) row := hrow
        obtain ⟨r0, hr0, rfl⟩ := List.mem_map.mp hrow'
        rw [foldl_swapIdx_length]
        exact hrows _ hr0
  · exact ⟨⟨mapGrid_shape _ _ _ _ hsh, rfl, rfl, rfl, rfl⟩,
      ⟨flipRows_shape _ _ _ hsh, rfl, rfl, rfl, rfl⟩,
      ⟨flop_shape _ _ hsh (le_of_eq rfl), rfl, rfl, rfl, rfl⟩⟩

/-- Witness for C10: the frame conditions on a concrete 2×2 bitmap,
graymap and pixmap. -/
theorem invert_flip_flop_frame_witness :
    (Shape (PBM.Flip ⟨[[true, false], [false, true]], 2, 2, tokP1⟩).data 2 2) ∧
      (Unnamed000.PGM.Flop ⟨[[1, 2], [3, 4]], 2, 2, tokP2, 255⟩).max = 255 ∧
      (PPM.Invert ⟨[[redPix, blackPix], [blackPix, redPix]], 2, 2, tokP3, 255⟩).height = 2 := by
  refine ⟨?_, ?_, ?_⟩
  · exact ((invert_flip_flop_frame.1 ⟨[[true, false], [false, true]], 2, 2, tokP1⟩
      (by decide)).2.1).1
  · exact ((invert_flip_flop_frame.2.1 ⟨[[1, 2], [3, 4]], 2, 2, tokP2, 255⟩
      (by decide)).2.2).2.2.2.2
  · exact ((invert_flip_flop_frame.2.2 ⟨[[redPix, blackPix], [blackPix, redPix]], 2, 2,
      tokP3, 255⟩ (by decide)).1).2.2.1

/-! ## Claim C4, amended -/

/-- C4 (amended): for every point `p` and color `c`, `DrawLine(p, p, c)`
performs exactly the single call `Set(p.X, p.Y, c)` and touches no other
pixel; when `p` is inside a canvas of the declared shape this writes
exactly the pixel `p`.  The `steps == 0` case is not guarded — the
increments are computed as the division by zero `0.0/0.0` (see the
counterexample) — but the single loop iteration converts the still-exact
coordinates of `p`, so the NaN increments never reach a pixel address and
no failure occurs for an in-bounds `p`. -/
theorem drawLine_degenerate_single_pixel :
    (∀ (ppm : PPM) (p : Point) (c : Pixel), ppm.DrawLine p p c = ppm.Set p.X p.Y c) ∧
    (∀ (ppm : PPM) (p : Point) (c : Pixel), Shape ppm.data ppm.width ppm.height →
      0 ≤ p.X → p.X < (ppm.width : Int) → 0 ≤ p.Y → p.Y < (ppm.height : Int) →
      ppm.DrawLine p p c =
        some { ppm with
          data := ppm.data.set p.Y.toNat ((ppm.data.getD p.Y.toNat []).set p.X.toNat c) }) := by
  refine ⟨drawLine_self_eq_set, fun ppm p c hsh hx0 hxw hy0 hyh => ?_⟩
  rw [drawLine_self_eq_set, set_in_bounds ppm p.X p.Y c hsh hx0 hxw hy0 hyh]

/-- Witness for the amended C4: the degenerate line at `(0,0)` on the 1×1
canvas paints exactly that pixel. -/
theorem drawLine_degenerate_single_pixel_witness :
    onePix.DrawLine ⟨0, 0⟩ ⟨0, 0⟩ redPix =
      some { onePix with data := onePix.data.set 0 ((onePix.data.getD 0 []).set 0 redPix) } :=
  drawLine_degenerate_single_pixel.2 onePix ⟨0, 0⟩ redPix (by decide)
    (by decide) (by decide) (by decide) (by decide)

/-! ## Bit-packing lemmas (`saveP4`, claim C6) -/

theorem packStep_length (row : List Bool) (bytes : List Nat) (x : Nat) :
    (packStep row bytes x).length = bytes.length := by
  unfold packStep
  split <;> simp

theorem packFold_length (row : List Bool) :
    ∀ (l : List Nat) (init : List Nat), (l.foldl (packStep row) init).length = init.length := by
  intro l
  induction l with
  | nil => intro init; rfl
  | cons x xs ih =>
    intro init
    rw [List.foldl_cons, ih, packStep_length]

theorem packRow_length (row : List Bool) (w : Nat) :
    (packRow row w).length = (w + 7) / 8 := by
  rw [packRow, packFold_length, List.length_replicate]

theorem packFold_testBit (row : List Bool) :
    ∀ (l : List Nat) (init : List Nat), (∀ x ∈ l, x / 8 < init.length) →
      ∀ i k, Nat.testBit ((l.foldl (packStep row) init).getD i 0) k
        = (Nat.testBit (init.getD i 0) k ||
            l.any fun x => row.getD x false && (x / 8 == i) && (7 - x % 8 == k)) := by
  intro l
  induction l with
  | nil => intro init _ i k; simp
  | cons x xs ih =>
    intro init hmem i k
    have hx : x / 8 < init.length := hmem x (by simp)
    have hmem' : ∀ y ∈ xs, y / 8 < (packStep row init x).length := by
      intro y hy
      rw [packStep_length]
      exact hmem y (by simp [hy])
    rw [List.foldl_cons, ih (packStep row init x) hmem' i k, List.any_cons]
    by_cases hrow : row.getD x false
    · have hrow' : row[x]?.getD false = true := by
        rw [← List.getD_eq_getElem?_getD]; exact hrow
      by_cases hi : x / 8 = i
      · subst hi
        rw [packStep, if_pos hrow, getD_set_self _ hx, Nat.testBit_or,
          Nat.one_shiftLeft, Nat.testBit_two_pow]
        simp [hrow', Bool.or_assoc, Bool.beq_eq_decide_eq]
      · rw [packStep, if_pos hrow, getD_set_ne _ hi]
        have : (x / 8 == i) = false := by simp [hi]
        simp [hrow', this]
    · have hrow' : row[x]?.getD false = false := by
        rw [← List.getD_eq_getElem?_getD]; exact Bool.eq_false_iff.mpr hrow
      rw [packStep, if_neg hrow]
      simp [hrow']

theorem packRow_testBit (row : List Bool) (w i k : Nat) :
    Nat.testBit ((packRow row w).getD i 0) k
      = (List.range w).any fun x => row.getD x false && (x / 8 == i) && (7 - x % 8 == k) := by
  rw [packRow, packFold_testBit row (List.range w) _ ?side i k, getD_replicate_zero]
  · simp
  · intro x hx
    rw [List.length_replicate]
    have : x < w := List.mem_range.mp hx
    omega

theorem packRow_bit_eq (row : List Bool) (w x : Nat) (hx : x < w) :
    Nat.testBit ((packRow row w).getD (x / 8) 0) (7 - x % 8) = row.getD x false := by
  rw [packRow_testBit]
  by_cases hrow : row.getD x false
  · have hrow' : row[x]?.getD false = true := by
      rw [← List.getD_eq_getElem?_getD]; exact hrow
    rw [hrow]
    rw [List.any_eq_true]
    exact ⟨x, List.mem_range.mpr hx, by simp [hrow']⟩
  · have hrow' : row[x]?.getD false = false := by
      rw [← List.getD_eq_getElem?_getD]; exact Bool.eq_false_iff.mpr hrow
    rw [Bool.eq_false_iff.mpr hrow]
    rw [List.any_eq_false]
    intro y hy
    have hyw : y < w := List.mem_range.mp hy
    by_cases hxy : y = x
    · subst hxy
      simp [hrow']
    · have h8 : y % 8 < 8 := Nat.mod_lt _ (by omega)
      have h8' : x % 8 < 8 := Nat.mod_lt _ (by omega)
      intro hcontra
      simp only [Bool.and_eq_true, beq_iff_eq] at hcontra
      obtain ⟨⟨-, hdiv⟩, hmod⟩ := hcontra
      exact hxy (by omega)

theorem packRow_bit_eq_zero (row : List Bool) (w x : Nat) (hx : w ≤ x) :
    Nat.testBit ((packRow row w).getD (x / 8) 0) (7 - x % 8) = false := by
  rw [packRow_testBit, List.any_eq_false]
  intro y hy
  have hyw : y < w := List.mem_range.mp hy
  have h8 : y % 8 < 8 := Nat.mod_lt _ (by omega)
  have h8' : x % 8 < 8 := Nat.mod_lt _ (by omega)
  intro hcontra
  simp only [Bool.and_eq_true, beq_iff_eq] at hcontra
  obtain ⟨⟨-, hdiv⟩, hmod⟩ := hcontra
  omega

theorem extract_eq_testBit (v k : Nat) :
    (v >>> k) &&& 1 = (if Nat.testBit v k then 1 else 0) := by
  rw [Nat.and_one_is_mod, Nat.testBit_to_div_mod, Nat.shiftRight_eq_div_pow]
  rcases Nat.mod_two_eq_zero_or_one (v / 2 ^ k) with h | h <;> simp [h]

/-- C6: for every boolean row of length `width`, the `saveP4` row packer
emits exactly `(width+7)/8` bytes; bit `7 - x%8` (MSB first, so the most
significant bit is the lowest column) of byte `x/8` holds pixel `x` for
`x < width`, and every padding bit position beyond `width` in the emitted
bytes is zero; and the row `[1,0,1,0,1,0,1,0,1,0]` of width 10 packs to
the bytes `[0b10101010, 0b10000000] = [170, 128]`. -/
theorem packRow_spec :
    (∀ (row : List Bool) (w : Nat), row.length = w →
      (packRow row w).length = (w + 7) / 8 ∧
      (∀ x, x < w →
        ((packRow row w).getD (x / 8) 0 >>> (7 - x % 8)) &&& 1 =
          (if row.getD x false then 1 else 0)) ∧
      (∀ x, w ≤ x → x < 8 * ((w + 7) / 8) →
        ((packRow row w).getD (x / 8) 0 >>> (7 - x % 8)) &&& 1 = 0)) ∧
    packRow [true, false, true, false, true, false, true, false, true, false] 10 = [170, 128] := by
  constructor
  · intro row w _
    refine ⟨packRow_length row w, fun x hx => ?_, fun x hx _ => ?_⟩
    · rw [extract_eq_testBit, packRow_bit_eq row w x hx]
    · rw [extract_eq_testBit, packRow_bit_eq_zero row w x hx]
      simp
  · decide

/-- Witness for C6: the general part applied to the concrete width-10 row
of the claim. -/
theorem packRow_spec_witness :
    (packRow [true, false, true, false, true, false, true, false, true, false] 10).length =
        (10 + 7) / 8 ∧
      ((packRow [true, false, true, false, true, false, true, false, true, false] 10).getD
          (2 / 8) 0 >>> (7 - 2 % 8)) &&& 1 = 1 := by
  obtain ⟨hlen, hbit, -⟩ :=
    packRow_spec.1 [true, false, true, false, true, false, true, false, true, false] 10 (by decide)
  exact ⟨hlen, by rw [hbit 2 (by decide)]; decide⟩

/-! ## Decimal numeral lemmas (claim C1) -/

theorem digitsRevFuel_congr : ∀ (f1 f2 n : Nat), n ≤ f1 → n ≤ f2 →
    digitsRevFuel f1 n = digitsRevFuel f2 n := by
  intro f1
  induction f1 with
  | zero =>
    intro f2 n h1 _
    have : n = 0 := by omega
    subst this
    cases f2 with
    | zero => rfl
    | succ f2 => simp [digitsRevFuel]
  | succ f1 ih =>
    intro f2 n h1 h2
    cases f2 with
    | zero =>
      have : n = 0 := by omega
      subst this
      simp [digitsRevFuel]
    | succ f2 =>
      show digitsRevFuel (f1 + 1) n = digitsRevFuel (f2 + 1) n
      unfold digitsRevFuel
      by_cases hn : n = 0
      · simp [hn]
      · rw [if_neg hn, if_neg hn, ih f2 (n / 10) (by omega) (by omega)]

theorem digitsRev_unfold (n : Nat) (h : n ≠ 0) :
    digitsRev n = n % 10 :: digitsRev (n / 10) := by
  show digitsRevFuel n n = _
  cases n with
  | zero => exact absurd rfl h
  | succ m =>
    unfold digitsRevFuel
    rw [if_neg h]
    rw [digitsRevFuel_congr m ((m + 1) / 10) ((m + 1) / 10) (by omega) (by omega)]
    rfl

theorem digitsRev_lt_ten (n : Nat) : ∀ d ∈ digitsRev n, d < 10 := by
  induction n using Nat.strong_induction_on with
  | _ n ih =>
    by_cases hn : n = 0
    · subst hn
      intro d hd
      simp [digitsRev, digitsRevFuel] at hd
    · rw [digitsRev_unfold n hn]
      intro d hd
      rcases List.mem_cons.mp hd with rfl | hd
      · exact Nat.mod_lt _ (by omega)
      · exact ih (n / 10) (Nat.div_lt_self (by omega) (by omega)) d hd

theorem digitsRev_val (n : Nat) :
    (digitsRev n).reverse.foldl (fun a d => 10 * a + d) 0 = n := by
  induction n using Nat.strong_induction_on with
  | _ n ih =>
    by_cases hn : n = 0
    · subst hn
      rfl
    · rw [digitsRev_unfold n hn]
      rw [List.reverse_cons, List.foldl_append]
      rw [ih (n / 10) (Nat.div_lt_self (by omega) (by omega))]
      show 10 * (n / 10) + n % 10 = n
      omega

theorem natToBytes_digits (n : Nat) : ∀ b ∈ natToBytes n, 48 ≤ b ∧ b ≤ 57 := by
  intro b hb
  unfold natToBytes at hb
  obtain ⟨d, hd, rfl⟩ := List.mem_map.mp hb
  split at hd
  · simp at hd
    omega
  · have := digitsRev_lt_ten n d (List.mem_reverse.mp hd)
    omega

theorem natToBytes_ne_nil (n : Nat) : natToBytes n ≠ [] := by
  unfold natToBytes
  split
  · simp
  · next h =>
    have : digitsRev n ≠ [] := by
      rw [digitsRev_unfold n h]
      simp
    simpa using this

theorem natToBytes_no_space (n : Nat) : ∀ b ∈ natToBytes n, isSpace b = false := by
  intro b hb
  have := natToBytes_digits n b hb
  unfold isSpace
  simp only [Bool.or_eq_false_iff, beq_eq_false_iff_ne]
  omega

theorem natToBytes_no_nl (n : Nat) : nl ∉ natToBytes n := by
  intro h
  have := natToBytes_digits n nl h
  unfold nl at this
  omega

theorem parseNatTok_natToBytes (n : Nat) : parseNatTok (natToBytes n) = some n := by
  unfold parseNatTok
  rw [if_pos]
  · congr 1
    unfold natToBytes
    rw [List.foldl_map]
    simp only [Nat.add_sub_cancel]
    split
    · next h => simp [h]
    · exact digitsRev_val n
  · refine ⟨natToBytes_ne_nil n, ?_⟩
    rw [List.all_eq_true]
    intro b hb
    have := natToBytes_digits n b hb
    unfold isDigit
    simp only [Bool.and_eq_true, decide_eq_true_eq]
    omega

theorem parseIntTok_natToBytes (n : Nat) : parseIntTok (natToBytes n) = some (n : Int) := by
  unfold parseIntTok
  split
  · next heq =>
    exfalso
    have : (45 : Nat) ∈ natToBytes n := by rw [heq]; simp
    have := natToBytes_digits n 45 this
    omega
  · next heq =>
    exfalso
    have : (43 : Nat) ∈ natToBytes n := by rw [heq]; simp
    have := natToBytes_digits n 43 this
    omega
  · rw [parseNatTok_natToBytes]
    rfl

theorem parseU8Tok_natToBytes (n : Nat) (h : n ≤ 255) :
    parseU8Tok (natToBytes n) = some n := by
  unfold parseU8Tok
  rw [parseIntTok_natToBytes]
  show (if 0 ≤ (n : Int) ∧ (n : Int) ≤ 255 then some (n : Int).toNat else none) = some n
  rw [if_pos ⟨Int.natCast_nonneg n, by omega⟩]
  simp

/-! ## Line and token lemmas (claim C1) -/

theorem readLine_append (l r : List Nat) (h : nl ∉ l) :
    readLine (l ++ nl :: r) = some (l ++ [nl], r) := by
  induction l with
  | nil => simp [readLine]
  | cons b bs ih =>
    have hb : b ≠ nl := fun hc => h (hc ▸ List.mem_cons_self b bs)
    show readLine (b :: (bs ++ nl :: r)) = _
    unfold readLine
    rw [if_neg hb, ih (fun hc => h (List.mem_cons_of_mem b hc))]
    rfl

theorem dropWhile_isSpace_eq_self (l : List Nat) (h : ∀ b ∈ l, isSpace b = false) :
    l.dropWhile (isSpace ·) = l := by
  cases l with
  | nil => rfl
  | cons b bs =>
    rw [List.dropWhile_cons, if_neg]
    simp [h b (List.mem_cons_self b bs)]

theorem trimSpace_line (l : List Nat) (hne : l ≠ [])
    (hh : isSpace (l.headD 0) = false) (hl : isSpace (l.getLastD 0) = false) :
    trimSpace (l ++ [nl]) = l := by
  unfold trimSpace
  obtain ⟨a, as, rfl⟩ := List.exists_cons_of_ne_nil hne
  have hstep1 : ((a :: as) ++ [nl]).dropWhile (isSpace ·) = (a :: as) ++ [nl] := by
    show ((a :: (as ++ [nl])).dropWhile (isSpace ·)) = _
    rw [List.dropWhile_cons, if_neg]
    · rfl
    · simpa using hh
  rw [hstep1]
  have hrev : ((a :: as) ++ [nl]).reverse = nl :: (a :: as).reverse := by
    rw [List.reverse_append]
    rfl
  rw [hrev]
  rw [List.dropWhile_cons, if_pos (by decide)]
  have hdrop : (a :: as).reverse.dropWhile (isSpace ·) = (a :: as).reverse := by
    cases hrv : (a :: as).reverse with
    | nil => simp at hrv
    | cons c cs =>
      rw [List.dropWhile_cons, if_neg]
      have hc : (a :: as).getLast? = some c := by
        rw [← List.head?_reverse, hrv]
        rfl
      have hcd : (a :: as).getLastD 0 = c := by
        rw [List.getLastD_eq_getLast?, hc]
        rfl
      rw [hcd] at hl
      simp [hl]
  rw [hdrop, List.reverse_reverse]

theorem fieldsAux_nil_eq (cur : List Nat) :
    fieldsAux [] cur = if cur.isEmpty then [] else [cur.reverse] := rfl

theorem fieldsAux_cons_eq (b : Nat) (l cur : List Nat) :
    fieldsAux (b :: l) cur =
      if isSpace b then
        (if cur.isEmpty then fieldsAux l [] else cur.reverse :: fieldsAux l [])
      else fieldsAux l (b :: cur) := rfl

theorem fieldsAux_token : ∀ (tok rest cur : List Nat), (∀ b ∈ tok, isSpace b = false) →
    fieldsAux (tok ++ rest) cur = fieldsAux rest (tok.reverse ++ cur) := by
  intro tok
  induction tok with
  | nil => intro rest cur _; simp
  | cons b bs ih =>
    intro rest cur h
    show fieldsAux (b :: (bs ++ rest)) cur = _
    rw [fieldsAux_cons_eq]
    rw [if_neg (by simp [h b (List.mem_cons_self b bs)])]
    rw [ih rest (b :: cur) (fun x hx => h x (List.mem_cons_of_mem b hx))]
    rw [List.reverse_cons, List.append_assoc]
    rfl

theorem fieldsAux_sepSpace : ∀ (toks : List (List Nat)) (sfx : List Nat),
    (∀ t ∈ toks, t ≠ [] ∧ ∀ b ∈ t, isSpace b = false) →
    fieldsAux sfx [] = [] →
    (∀ cur : List Nat, cur ≠ [] → fieldsAux sfx cur = [cur.reverse]) →
    fieldsAux (sepSpace toks ++ sfx) [] = toks := by
  intro toks
  induction toks with
  | nil =>
    intro sfx _ h0 _
    simpa [sepSpace] using h0
  | cons t ts ih =>
    intro sfx h h0 h1
    cases ts with
    | nil =>
      show fieldsAux (t ++ sfx) [] = [t]
      rw [fieldsAux_token t sfx [] (h t (by simp)).2, List.append_nil]
      rw [h1 t.reverse (by simpa using (h t (by simp)).1)]
      simp
    | cons t2 ts2 =>
      show fieldsAux ((t ++ 32 :: sepSpace (t2 :: ts2)) ++ sfx) [] = t :: t2 :: ts2
      rw [List.append_assoc]
      rw [fieldsAux_token t _ [] (h t (by simp)).2, List.append_nil]
      show fieldsAux (32 :: (sepSpace (t2 :: ts2) ++ sfx)) t.reverse = _
      rw [fieldsAux_cons_eq]
      rw [if_pos (by decide)]
      have hne : t.reverse.isEmpty = false := by
        simpa [List.isEmpty_iff] using (h t (by simp)).1
      rw [if_neg (by simp [hne])]
      rw [List.reverse_reverse]
      rw [ih sfx (fun x hx => h x (List.mem_cons_of_mem t hx)) h0 h1]

theorem fields_sepSpace_nl (toks : List (List Nat))
    (h : ∀ t ∈ toks, t ≠ [] ∧ ∀ b ∈ t, isSpace b = false) :
    fields (sepSpace toks ++ [nl]) = toks := by
  refine fieldsAux_sepSpace toks [nl] h (by decide) ?_
  intro cur hc
  show fieldsAux [nl] cur = [cur.reverse]
  rw [fieldsAux_cons_eq]
  rw [if_pos (by decide)]
  rw [if_neg (by simpa [List.isEmpty_iff] using hc)]
  rfl

theorem fields_sepSpace (toks : List (List Nat))
    (h : ∀ t ∈ toks, t ≠ [] ∧ ∀ b ∈ t, isSpace b = false) :
    fields (sepSpace toks) = toks := by
  have := fieldsAux_sepSpace toks [] h rfl (fun cur hc => by
    rw [fieldsAux_nil_eq]
    rw [if_neg (by simpa [List.isEmpty_iff] using hc)])
  simpa using this

theorem splitLines_cons_eq (b : Nat) (bs : List Nat) :
    splitLines (b :: bs) =
      if b = nl then [] :: splitLines bs
      else
        match splitLines bs with
        | [] => [[b]]
        | l :: ls => (b :: l) :: ls := rfl

theorem splitLines_append (l r : List Nat) (h : nl ∉ l) :
    splitLines (l ++ nl :: r) = l :: splitLines r := by
  induction l with
  | nil =>
    show splitLines (nl :: r) = [] :: splitLines r
    rw [splitLines_cons_eq, if_pos rfl]
  | cons b bs ih =>
    have hb : b ≠ nl := fun hc => h (hc ▸ List.mem_cons_self b bs)
    show splitLines (b :: (bs ++ nl :: r)) = _
    rw [splitLines_cons_eq, if_neg hb, ih (fun hc => h (List.mem_cons_of_mem b hc))]

/-! ## Row fill lemmas (claim C1) -/

theorem take_cons_drop_take {α : Type} (cur : List α) (v : α) (x k : Nat)
    (hx : x < cur.length) :
    (cur.take x ++ v :: cur.drop (x + 1)).take (x + 1) = cur.take x ++ [v] ∧
      (cur.take x ++ v :: cur.drop (x + 1)).drop (x + 1 + k) = cur.drop (x + (k + 1)) := by
  have hlt : (cur.take x).length = x := by
    rw [List.length_take]
    omega
  constructor
  · rw [show x + 1 = (cur.take x).length + 1 from by rw [hlt], List.take_append]
    rfl
  · rw [show x + 1 + k = (cur.take x).length + (1 + k) from by rw [hlt]; omega,
      List.drop_append]
    rw [show (1 : Nat) + k = k + 1 from by omega, List.drop_succ_cons, List.drop_drop]
    congr 1
    omega

theorem p1FillRow_full (w : Nat) :
    ∀ (fs : List (List Nat)) (cur : List Bool) (x : Nat),
      cur.length = w → x + fs.length ≤ w →
      p1FillRow w cur x fs =
        some (cur.take x ++ fs.map (fun f => f == [49]) ++ cur.drop (x + fs.length)) := by
  intro fs
  induction fs with
  | nil =>
    intro cur x _ _
    show some cur = _
    simp
  | cons f fs ih =>
    intro cur x hlen hle
    have hx : x < w := by
      simp only [List.length_cons] at hle
      omega
    show p1FillRow w cur x (f :: fs) = _
    unfold p1FillRow
    rw [if_neg (by omega)]
    rw [ih (cur.set x (f == [49])) (x + 1) (by simpa using hlen)
      (by simp only [List.length_cons] at hle; omega)]
    have hset : cur.set x (f == [49]) =
        cur.take x ++ (f == [49]) :: cur.drop (x + 1) :=
      List.set_eq_take_cons_drop _ (by omega)
    obtain ⟨htake, hdrop⟩ :=
      take_cons_drop_take cur (f == [49]) x fs.length (by omega)
    rw [hset, htake, hdrop]
    simp [List.append_assoc]

theorem p2FillRow_vals (w : Nat) :
    ∀ (vals : List Nat) (cur : List Nat) (x : Nat),
      cur.length = w → x + vals.length ≤ w → (∀ v ∈ vals, v ≤ 255) →
      Unnamed000.p2FillRow w cur x (vals.map natToBytes) =
        some (cur.take x ++ vals ++ cur.drop (x + vals.length)) := by
  intro vals
  induction vals with
  | nil =>
    intro cur x _ _ _
    show some cur = _
    simp
  | cons v vs ih =>
    intro cur x hlen hle hbound
    have hx : x < w := by
      simp only [List.length_cons] at hle
      omega
    show Unnamed000.p2FillRow w cur x (natToBytes v :: vs.map natToBytes) = _
    unfold Unnamed000.p2FillRow
    rw [if_neg (by omega)]
    rw [parseU8Tok_natToBytes v (hbound v (by simp))]
    show Unnamed000.p2FillRow w (cur.set x v) (x + 1) (vs.map natToBytes) = _
    rw [ih (cur.set x v) (x + 1) (by simpa using hlen)
      (by simp only [List.length_cons] at hle; omega)
      (fun u hu => hbound u (by simp [hu]))]
    have hset : cur.set x v = cur.take x ++ v :: cur.drop (x + 1) :=
      List.set_eq_take_cons_drop _ (by omega)
    obtain ⟨htake, hdrop⟩ := take_cons_drop_take cur v x vs.length (by omega)
    rw [hset, htake, hdrop]
    simp [List.append_assoc]

/-! ## Row codec lemmas -/

theorem unpackRow_packRow (r : List Bool) (w : Nat) (h : r.length = w) :
    unpackRow (packRow r w) w = r := by
  apply List.ext_getElem
  · simp [unpackRow, h]
  intro i h1 h2
  have hi : i < w := by simpa [unpackRow] using h1
  have h1' : i < ((List.range w).map fun x =>
      ((packRow r w).getD (x / 8) 0 >>> (7 - x % 8)) &&& 1 != 0).length := h1
  show ((List.range w).map fun x =>
    ((packRow r w).getD (x / 8) 0 >>> (7 - x % 8)) &&& 1 != 0)[i] = r[i]
  rw [List.getElem_map, List.getElem_range, extract_eq_testBit, packRow_bit_eq r w i hi,
    List.getD_eq_getElem r false (by omega)]
  cases hri : r[i] <;> simp

theorem p1Tok_clean (r : List Bool) :
    ∀ t ∈ r.map fun b => if b then ([49] : List Nat) else [48],
      t ≠ [] ∧ ∀ b ∈ t, isSpace b = false := by
  intro t ht
  obtain ⟨b, -, rfl⟩ := List.mem_map.mp ht
  cases b <;> exact ⟨by simp, by decide⟩

theorem sepSpace_forall (P : Nat → Prop) (h32 : P 32) :
    ∀ (toks : List (List Nat)), (∀ t ∈ toks, ∀ b ∈ t, P b) →
      ∀ b ∈ sepSpace toks, P b := by
  intro toks
  induction toks with
  | nil => intro _ b hb; simp [sepSpace] at hb
  | cons t ts ih =>
    cases ts with
    | nil =>
      intro h b hb
      exact h t (by simp) b hb
    | cons t2 ts2 =>
      intro h b hb
      show P b
      have hb' : b ∈ t ++ 32 :: sepSpace (t2 :: ts2) := hb
      rcases List.mem_append.mp hb' with h1 | h2
      · exact h t (by simp) b h1
      · rcases List.mem_cons.mp h2 with rfl | h3
        · exact h32
        · exact ih (fun u hu => h u (List.mem_cons_of_mem t hu)) b h3

theorem saveP1Row_nl_free (r : List Bool) :
    nl ∉ sepSpace (r.map fun b => if b then ([49] : List Nat) else [48]) := by
  intro hm
  have := sepSpace_forall (fun b => b ≠ nl) (by decide) _
    (fun t ht b hb => by
      have := (p1Tok_clean r t ht).2 b hb
      intro hc
      subst hc
      exact absurd this (by decide)) nl hm
  exact this rfl

theorem map_pred_bitTok (r : List Bool) :
    ((r.map fun b => if b then ([49] : List Nat) else [48]).map fun f => f == [49]) = r := by
  rw [List.map_map]
  have : ∀ b ∈ r, ((fun f => f == [49]) ∘ fun b => if b then ([49] : List Nat) else [48]) b =
      id b := by
    intro b _
    cases b <;> rfl
  rw [List.map_congr_left this, List.map_id]

theorem p2Tok_clean (r : List Nat) :
    ∀ t ∈ r.map natToBytes, t ≠ [] ∧ ∀ b ∈ t, isSpace b = false := by
  intro t ht
  obtain ⟨v, -, rfl⟩ := List.mem_map.mp ht
  exact ⟨natToBytes_ne_nil v, natToBytes_no_space v⟩

theorem saveP2Row_nl_free (r : List Nat) : nl ∉ sepSpace (r.map natToBytes) := by
  intro hm
  have := sepSpace_forall (fun b => b ≠ nl) (by decide) _
    (fun t ht b hb => by
      obtain ⟨v, -, rfl⟩ := List.mem_map.mp ht
      intro hc
      subst hc
      exact natToBytes_no_nl v hb) nl hm
  exact this rfl

/-! ## Header lemmas -/

theorem headD_mem {l : List Nat} (d : Nat) (h : l ≠ []) : l.headD d ∈ l := by
  cases l with
  | nil => exact absurd rfl h
  | cons a as => simp

theorem getLastD_mem {l : List Nat} (d : Nat) (h : l ≠ []) : l.getLastD d ∈ l := by
  rw [List.getLastD_eq_getLast?]
  cases hl : l.getLast? with
  | none => exact absurd (List.getLast?_eq_none_iff.mp hl) h
  | some a =>
    show a ∈ l
    exact List.mem_of_getLast?_eq_some hl

/-- Trimming a clean single-token line strips exactly the final newline. -/
theorem trim_tok (tok : List Nat) (hne : tok ≠ []) (hcl : ∀ b ∈ tok, isSpace b = false) :
    trimSpace (tok ++ [nl]) = tok :=
  trimSpace_line tok hne (hcl _ (headD_mem 0 hne)) (hcl _ (getLastD_mem 0 hne))

theorem dims_no_nl (wv hv : Nat) :
    nl ∉ sepSpace [natToBytes wv, natToBytes hv] := by
  intro hm
  have := sepSpace_forall (fun b => b ≠ nl) (by decide) _
    (fun t ht b hb => by
      rcases List.mem_cons.mp ht with rfl | ht2
      · intro hc; subst hc; exact natToBytes_no_nl wv hb
      · rcases List.mem_cons.mp ht2 with rfl | ht3
        · intro hc; subst hc; exact natToBytes_no_nl hv hb
        · simp at ht3) nl hm
  exact this rfl

theorem trim_dims (wv hv : Nat) :
    trimSpace (sepSpace [natToBytes wv, natToBytes hv] ++ [nl]) =
      sepSpace [natToBytes wv, natToBytes hv] := by
  have hshape : sepSpace [natToBytes wv, natToBytes hv] =
      natToBytes wv ++ 32 :: natToBytes hv := rfl
  apply trimSpace_line
  · rw [hshape]
    simp [natToBytes_ne_nil wv]
  · rw [hshape, List.headD_eq_head?_getD,
      List.head?_append_of_ne_nil _ (natToBytes_ne_nil wv)]
    rw [← List.headD_eq_head?_getD]
    exact natToBytes_no_space wv _ (headD_mem 0 (natToBytes_ne_nil wv))
  · rw [hshape, show natToBytes wv ++ 32 :: natToBytes hv =
      (natToBytes wv ++ [32]) ++ natToBytes hv from by simp, List.getLastD_eq_getLast?,
      List.getLast?_append_of_ne_nil _ (natToBytes_ne_nil hv)]
    rw [← List.getLastD_eq_getLast?]
    exact natToBytes_no_space hv _ (getLastD_mem 0 (natToBytes_ne_nil hv))

theorem dims_clean (wv hv : Nat) :
    ∀ t ∈ [natToBytes wv, natToBytes hv], t ≠ [] ∧ ∀ b ∈ t, isSpace b = false := by
  intro t ht
  rcases List.mem_cons.mp ht with rfl | ht2
  · exact ⟨natToBytes_ne_nil wv, natToBytes_no_space wv⟩
  · rcases List.mem_cons.mp ht2 with rfl | ht3
    · exact ⟨natToBytes_ne_nil hv, natToBytes_no_space hv⟩
    · simp at ht3

theorem parse2Ints_dims (wv hv : Nat) :
    parse2Ints (sepSpace [natToBytes wv, natToBytes hv]) = some ((wv : Int), (hv : Int)) := by
  unfold parse2Ints
  rw [fields_sepSpace _ (dims_clean wv hv)]
  show (match parseIntTok (natToBytes wv), parseIntTok (natToBytes hv) with
    | some x, some y => some (x, y)
    | _, _ => none) = _
  rw [parseIntTok_natToBytes, parseIntTok_natToBytes]

theorem range_getD_map {α β : Type} (data : List (List α)) (f : List α → β) (n : Nat)
    (h : data.length = n) :
    (List.range n).map (fun i => f (data.getD i [])) = data.map f := by
  apply List.ext_getElem
  · simp [h]
  intro i h1 h2
  rw [List.getElem_map, List.getElem_range, List.getElem_map]
  congr 1
  exact List.getD_eq_getElem data [] (by simpa using h2)

/-! ## Numeral token lemma -/

theorem pgm_fields_max (mx : Nat) : fields (natToBytes mx) = [natToBytes mx] := by
  have := fields_sepSpace [natToBytes mx]
    (fun t ht => by
      rcases List.mem_cons.mp ht with rfl | h2
      · exact ⟨natToBytes_ne_nil mx, natToBytes_no_space mx⟩
      · simp at h2)
  simpa [sepSpace] using this

/-! ## PPM round trip (the `bufio.Scanner`-based ASCII decoder) -/

theorem pixContent_clean (p : Pixel) :
    ∀ t ∈ [natToBytes p.R, natToBytes p.G, natToBytes p.B],
      t ≠ [] ∧ ∀ b ∈ t, isSpace b = false := by
  intro t ht
  rcases List.mem_cons.mp ht with rfl | ht2
  · exact ⟨natToBytes_ne_nil _, natToBytes_no_space _⟩
  rcases List.mem_cons.mp ht2 with rfl | ht3
  · exact ⟨natToBytes_ne_nil _, natToBytes_no_space _⟩
  rcases List.mem_cons.mp ht3 with rfl | ht4
  · exact ⟨natToBytes_ne_nil _, natToBytes_no_space _⟩
  · simp at ht4

theorem pixContent_no_nl (p : Pixel) : nl ∉ pixContent p := by
  intro hm
  have := sepSpace_forall (fun b => b ≠ nl) (by decide) _
    (fun t ht b hb => by
      have := (pixContent_clean p t ht).2 b hb
      intro hc
      subst hc
      exact absurd this (by decide)) nl hm
  exact this rfl

theorem sscanf3_pix (p : Pixel) (hp : p.R ≤ 255 ∧ p.G ≤ 255 ∧ p.B ≤ 255) :
    sscanf3U8Lenient (pixContent p) = (p.R, p.G, p.B) := by
  unfold sscanf3U8Lenient pixContent
  rw [fields_sepSpace _ (pixContent_clean p)]
  show (match parseU8Tok (natToBytes p.R) with
    | none => (0, 0, 0)
    | some va =>
      match parseU8Tok (natToBytes p.G) with
      | none => (va, 0, 0)
      | some vb => (va, vb, (parseU8Tok (natToBytes p.B)).getD 0)) = _
  rw [parseU8Tok_natToBytes _ hp.1, parseU8Tok_natToBytes _ hp.2.1,
    parseU8Tok_natToBytes _ hp.2.2]
  rfl

theorem readPPMRow_zero (ls : List (List Nat)) : readPPMRow 0 ls = ([], ls) := rfl

theorem readPPMRow_succ (w : Nat) (ls : List (List Nat)) :
    readPPMRow (w + 1) ls =
      (let (r, g, b) := sscanf3U8Lenient (ls.headD [])
       let (row, ls') := readPPMRow w ls.tail
       (⟨r, g, b⟩ :: row, ls')) := rfl

theorem readPPMRow_roundtrip (w : Nat) :
    ∀ (row : List Pixel) (rest : List (List Nat)), row.length = w →
      (∀ p ∈ row, p.R ≤ 255 ∧ p.G ≤ 255 ∧ p.B ≤ 255) →
      readPPMRow w (row.map pixContent ++ rest) = (row, rest) := by
  induction w with
  | zero =>
    intro row rest hlen _
    rw [List.length_eq_zero.mp hlen]
    exact readPPMRow_zero rest
  | succ w ih =>
    intro row rest hlen hbound
    cases row with
    | nil => simp at hlen
    | cons p row =>
      rw [readPPMRow_succ]
      show (let (r, g, b) := sscanf3U8Lenient ((pixContent p :: row.map pixContent ++ rest).headD [])
        let (row', ls') := readPPMRow w (pixContent p :: row.map pixContent ++ rest).tail
        ((⟨r, g, b⟩ : Pixel) :: row', ls')) = (p :: row, rest)
      rw [show (pixContent p :: row.map pixContent ++ rest).headD [] = pixContent p from rfl,
        show (pixContent p :: row.map pixContent ++ rest).tail = row.map pixContent ++ rest
          from rfl]
      rw [sscanf3_pix p (hbound p (by simp))]
      rw [ih row rest (by simpa using hlen) (fun q hq => hbound q (by simp [hq]))]

theorem readPPMRows_succ (w n : Nat) (ls : List (List Nat)) :
    readPPMRows w (n + 1) ls =
      (let (row, ls') := readPPMRow w ls
       let (rows, ls'') := readPPMRows w n ls'
       (row :: rows, ls'')) := rfl

theorem readPPMRows_roundtrip (w : Nat) :
    ∀ (rows : List (List Pixel)) (rest : List (List Nat)),
      (∀ r ∈ rows, r.length = w ∧ ∀ p ∈ r, p.R ≤ 255 ∧ p.G ≤ 255 ∧ p.B ≤ 255) →
      readPPMRows w rows.length ((rows.map fun r => r.map pixContent).flatten ++ rest) =
        (rows, rest) := by
  intro rows
  induction rows with
  | nil => intro rest _; rfl
  | cons r rows ih =>
    intro rest h
    rw [List.length_cons, readPPMRows_succ]
    have hflat : ((r :: rows).map fun r => r.map pixContent).flatten ++ rest =
        r.map pixContent ++ (((rows.map fun r => r.map pixContent).flatten) ++ rest) := by
      show (r.map pixContent ++ (rows.map fun r => r.map pixContent).flatten) ++ rest = _
      rw [List.append_assoc]
    rw [hflat]
    rw [readPPMRow_roundtrip w r _ (h r (by simp)).1 (h r (by simp)).2]
    simp only [ih rest (fun u hu => h u (List.mem_cons_of_mem r hu))]

theorem splitLines_pix_row :
    ∀ (r : List Pixel) (rest : List Nat),
      splitLines ((r.map pixelLine).flatten ++ rest) = r.map pixContent ++ splitLines rest := by
  intro r
  induction r with
  | nil => intro rest; rfl
  | cons p r ih =>
    intro rest
    have hshape : ((p :: r).map pixelLine).flatten ++ rest =
        pixContent p ++ nl :: ((r.map pixelLine).flatten ++ rest) := by
      show (pixelLine p ++ (r.map pixelLine).flatten) ++ rest = _
      rw [pixelLine, List.append_assoc, List.append_assoc]
      rfl
    rw [hshape, splitLines_append _ _ (pixContent_no_nl p), ih]
    rfl

theorem splitLines_pix_rows :
    ∀ (rows : List (List Pixel)),
      splitLines ((rows.map fun r => (r.map pixelLine).flatten).flatten) =
        (rows.map fun r => r.map pixContent).flatten := by
  intro rows
  induction rows with
  | nil => rfl
  | cons r rows ih =>
    show splitLines ((r.map pixelLine).flatten ++
      (rows.map fun r => (r.map pixelLine).flatten).flatten) = _
    rw [splitLines_pix_row, ih]
    rfl

theorem sscanf2_dims (wv hv : Nat) :
    sscanf2Lenient (sepSpace [natToBytes wv, natToBytes hv]) = ((wv : Int), (hv : Int)) := by
  unfold sscanf2Lenient
  rw [fields_sepSpace _ (dims_clean wv hv)]
  show (match parseIntTok (natToBytes wv) with
    | none => (0, 0)
    | some x => (x, (parseIntTok (natToBytes hv)).getD 0)) = _
  rw [parseIntTok_natToBytes, parseIntTok_natToBytes]
  rfl

theorem sscanfUint_max (mx : Nat) : sscanfUintLenient (natToBytes mx) = mx := by
  unfold sscanfUintLenient
  rw [pgm_fields_max, List.headD_cons, parseIntTok_natToBytes]
  show (if 0 ≤ (mx : Int) then (mx : Int).toNat else 0) = mx
  rw [if_pos (Int.natCast_nonneg mx)]
  exact Int.toNat_natCast mx

theorem ppm_roundtrip (ppm : PPM) (hv : ppm.Valid) : ReadPPM ppm.Save = some ppm := by
  obtain ⟨hm, hw, hh, hmx1, hmx255, ⟨hlen, hrows⟩, hvals⟩ := hv
  have hrows' : ∀ r ∈ ppm.data, r.length = ppm.width ∧
      ∀ p ∈ r, p.R ≤ 255 ∧ p.G ≤ 255 ∧ p.B ≤ 255 :=
    fun r hr => ⟨hrows r hr, hvals r hr⟩
  have hbody : ((List.range ppm.height).map fun i =>
      (((ppm.data.getD i []).take ppm.width).map pixelLine).flatten).flatten =
      (ppm.data.map fun r => (r.map pixelLine).flatten).flatten := by
    rw [range_getD_map ppm.data (fun row => ((row.take ppm.width).map pixelLine).flatten)
      ppm.height hlen]
    congr 1
    apply List.map_congr_left
    intro row hrow
    rw [show row.take ppm.width = row from by
      rw [← hrows row hrow]; exact List.take_length row]
  have hlines : splitLines ppm.Save =
      ppm.magicNumber :: sepSpace [natToBytes ppm.width, natToBytes ppm.height] ::
        natToBytes ppm.max :: (ppm.data.map fun r => r.map pixContent).flatten := by
    rw [PPM.Save, hbody]
    rw [show ppm.magicNumber ++ [nl] ++
        sepSpace [natToBytes ppm.width, natToBytes ppm.height] ++ [nl] ++
        natToBytes ppm.max ++ [nl] ++
        (ppm.data.map fun r => (r.map pixelLine).flatten).flatten =
      ppm.magicNumber ++ nl ::
        (sepSpace [natToBytes ppm.width, natToBytes ppm.height] ++ nl ::
          (natToBytes ppm.max ++ nl ::
            (ppm.data.map fun r => (r.map pixelLine).flatten).flatten)) from by simp]
    rw [splitLines_append _ _ (by rw [hm]; decide)]
    rw [splitLines_append _ _ (dims_no_nl _ _)]
    rw [splitLines_append _ _ (natToBytes_no_nl _)]
    rw [splitLines_pix_rows]
  unfold ReadPPM
  rw [hlines]
  simp only [List.headD_cons, List.tail_cons, sscanf2_dims, sscanfUint_max]
  rw [if_neg (by omega)]
  have hrt := readPPMRows_roundtrip ppm.width ppm.data [] hrows'
  rw [hlen, List.append_nil] at hrt
  simp only [Int.toNat_natCast, hrt]



/-! ## Claim C1 -/

set_option maxRecDepth 100000 in
set_option maxHeartbeats 4000000 in
/-- C1: the encode/decode round trip fails for binary images whose encoded
file crosses the 4096-byte `bufio` buffer.  `ReadPBM` and the `ReadPGM` of
`src/unnamed/part_000` read each binary row with `bufio.Reader.Read`,
which returns at most the buffered bytes of one underlying read; the first
buffer fill ends mid-row for the images below, the short count trips the
`n < expected` check, and the decoders reject with `unexpected end of
file` the very files `Save` wrote.  The same decoders do round-trip files
that fit inside one buffer fill, and the ASCII variants (P1, P2, P3),
which read whole delimited lines, round-trip as well. -/
theorem binary_decode_short_read :
    (bigP4.Valid ∧ bigP4.Save.bind ReadPBM = none) ∧
    (bigP5.Valid ∧ bigP5.Save.bind Unnamed000.ReadPGM = none) ∧
    b4Img.Save.bind ReadPBM = some b4Img ∧
    g5Img.Save.bind Unnamed000.ReadPGM = some g5Img ∧
    b1Img.Save.bind ReadPBM = some b1Img ∧
    gray200.Save.bind Unnamed000.ReadPGM = some gray200 ∧
    ReadPPM onePix.Save = some onePix := by
  refine ⟨⟨?_, by decide⟩, ⟨?_, by decide⟩, by decide, by decide, by decide,
    by decide, by decide⟩
  · refine ⟨Or.inr rfl, by decide, by decide, ?_, ?_⟩
    · show (List.replicate 500 (List.replicate 80 false)).length = 500
      simp
    · intro row hrow
      rw [(List.mem_replicate.mp hrow).2]
      decide
  · refine ⟨Or.inr rfl, by decide, by decide, by decide, by decide, ⟨?_, ?_⟩, ?_⟩
    · show (List.replicate 60 (List.replicate 80 17)).length = 60
      simp
    · intro row hrow
      rw [(List.mem_replicate.mp hrow).2]
      decide
    · intro row hrow v hv
      rw [(List.mem_replicate.mp hrow).2] at hv
      rw [(List.mem_replicate.mp hv).2]
      decide

end Netpbm
